import Mathlib

/-!
# Verification of the regexp2 regular-expression engine

A shallow embedding, in Lean 4, of the core of the `regexp2` repository:
character classes built on a merge-set of character ranges
(`src/regexp2/src/mergeset.rs`, `src/regexp2/src/class.rs`), the
Thompson-construction NFA and its simulation
(`src/automata/src/nfa.rs`), the subset construction and DFA simulation
(`src/automata/src/convert.rs`, `src/automata/src/dfa.rs`), and the
shunting-yard pattern parser (`src/regexp2/src/parser.rs`).

Rust `char` values (Unicode scalar values) are modelled by `UChar`, a
natural number together with a proof that it avoids the surrogate gap.
Code that can panic (`unwrap` on failed `u32 -> char` conversions, and
`Option::unwrap` in the regex facade) is modelled with `Option`, where
`none` stands for a panic.  The naively recursive epsilon-closure of the
NFA, which need not terminate, is modelled with explicit fuel: a result
of `none` means the recursion has not finished within the given fuel,
and a computation that yields `none` at every fuel diverges.
-/

namespace Regexp2

/-- `n` is a Unicode scalar value: any code point except the surrogates
`0xD800..0xDFFF`.  This is exactly the set of values a Rust `char` can
hold. -/
def isScalar (n : Nat) : Prop := n < 0xD800 ∨ (0xE000 ≤ n ∧ n < 0x110000)

instance (n : Nat) : Decidable (isScalar n) := by
  unfold isScalar; infer_instance

/-- Model of a Rust `char`: a Unicode scalar value. -/
structure UChar where
  val : Nat
  valid : isScalar val
deriving DecidableEq, Repr

/-- Make a `UChar` from a numeric literal, defaulting to NUL if the code
point is not a scalar value (used only to write concrete characters). -/
def uch (n : Nat) : UChar :=
  if h : isScalar n then ⟨n, h⟩ else ⟨0, Or.inl (by omega)⟩

/-- Model of `u32::try_into::<char>()`: succeeds exactly on scalar
values; `none` models the `Err` case whose `unwrap` panics. -/
def charOfNat? (n : Nat) : Option UChar :=
  if h : isScalar n then some ⟨n, h⟩ else none

/-- `CharRange` from `src/regexp2/src/class.rs`: an inclusive range of
characters.  `endc` models the Rust field `end` (a Lean keyword). -/
structure CharRange where
  start : UChar
  endc : UChar
deriving DecidableEq, Repr

namespace CharRange

/-- `CharRange::new`. -/
def new (s e : UChar) : CharRange := ⟨s, e⟩

/-- `CharRange::new_single`. -/
def new_single (c : UChar) : CharRange := ⟨c, c⟩

/-- `CharRange::contains`: `self.start <= c && c <= self.end`. -/
def contains (r : CharRange) (c : UChar) : Bool :=
  r.start.val ≤ c.val && c.val ≤ r.endc.val

/-- `CharRange::intersection`. -/
def intersection (r other : CharRange) : Option CharRange :=
  if other.start.val > r.endc.val || r.start.val > other.endc.val then
    none
  else
    some (new (if r.start.val ≤ other.start.val then other.start else r.start)
              (if r.endc.val ≤ other.endc.val then r.endc else other.endc))

/-- `Value::intersects_with` for `CharRange`. -/
def intersectsWith (r other : CharRange) : Bool :=
  (r.intersection other).isSome

/-- `Value::union` for `CharRange`: the hull of the two ranges. -/
def vunion (r other : CharRange) : CharRange :=
  new (if r.start.val ≤ other.start.val then r.start else other.start)
      (if r.endc.val ≥ other.endc.val then r.endc else other.endc)

/-- `Value::key` for `CharRange`. -/
def key (r : CharRange) : UChar := r.start

end CharRange

/-! ## Merge-set (`src/regexp2/src/mergeset.rs`)

The `im::OrdMap` backing the merge-set is modelled as an association
list sorted by strictly ascending key.  `get_prev k` returns the entry
with the greatest key `≤ k` (the entry for `k` itself when present),
`get_next k` the entry with the least key `≥ k`, exactly as in the `im`
crate. -/

/-- The ordered map underlying `MergeSet`, specialised to its only
instantiation (`char` keys, `CharRange` values): an association list
kept sorted by strictly ascending key. -/
abbrev MSet : Type := List (UChar × CharRange)

namespace MSet

/-- `OrdMap::get_prev`: the entry with the greatest key `≤ k`. -/
def getPrev (m : MSet) (k : UChar) : Option (UChar × CharRange) :=
  match m with
  | [] => none
  | e :: rest =>
    if e.1.val ≤ k.val then
      match getPrev rest k with
      | some e' => some e'
      | none => some e
    else
      none

/-- `OrdMap::get_next`: the entry with the least key `≥ k`. -/
def getNext (m : MSet) (k : UChar) : Option (UChar × CharRange) :=
  match m with
  | [] => none
  | e :: rest => if k.val ≤ e.1.val then some e else getNext rest k

/-- `OrdMap::remove`. -/
def removeKey (m : MSet) (k : UChar) : MSet :=
  match m with
  | [] => []
  | e :: rest => if e.1 = k then rest else e :: removeKey rest k

/-- `OrdMap::insert`: replace the entry with an equal key, or insert in
key order. -/
def insertEntry (m : MSet) (k : UChar) (v : CharRange) : MSet :=
  match m with
  | [] => [(k, v)]
  | e :: rest =>
    if k.val < e.1.val then (k, v) :: e :: rest
    else if k = e.1 then (k, v) :: rest
    else e :: insertEntry rest k v

/-- The predecessor stage of `MergeSet::insert`: if the item intersects
the predecessor entry, merge with it, adopt its key and remove it. -/
def msInsertPred (m : MSet) (item : CharRange) (priority : UChar) :
    MSet × CharRange × UChar :=
  match m.getPrev priority with
  | some (pk, pv) =>
    if item.intersectsWith pv then (m.removeKey pk, item.vunion pv, pk)
    else (m, item, priority)
  | none => (m, item, priority)

/-- The successor stage of `MergeSet::insert`: if the item intersects
the successor entry, merge with it and remove it. -/
def msInsertSucc (m : MSet) (item : CharRange) (priority : UChar) :
    MSet × CharRange :=
  match m.getNext priority with
  | some (sk, sv) =>
    if item.intersectsWith sv then (m.removeKey sk, item.vunion sv)
    else (m, item)
  | none => (m, item)

/-- `MergeSet::insert` from `src/regexp2/src/mergeset.rs`: merge with
the predecessor entry if it intersects, then with the successor entry
if it intersects, then store. -/
def msInsert (m : MSet) (item : CharRange) : MSet :=
  let (m1, item1, priority1) := msInsertPred m item item.key
  let (m2, item2) := msInsertSucc m1 item1 priority1
  m2.insertEntry priority1 item2

/-- `MergeSet::is_empty`. -/
def msIsEmpty (m : MSet) : Bool := m.isEmpty

/-- The stored values, in key order (`MergeSet` iteration order). -/
def values (m : MSet) : List CharRange := m.map (·.2)

end MSet

/-! ## Character classes (`src/regexp2/src/class.rs`) -/

/-- `CharClass`: a set of character ranges held in a merge-set. -/
structure CharClass where
  ranges : MSet
deriving DecidableEq, Repr

namespace CharClass

/-- `CharClass::new`. -/
def new : CharClass := ⟨[]⟩

/-- `CharClass::contains`. -/
def contains (cc : CharClass) (c : UChar) : Bool :=
  cc.ranges.values.any (·.contains c)

/-- `CharClass::is_empty`. -/
def isEmpty (cc : CharClass) : Bool := cc.ranges.isEmpty

/-- `CharClass::add_range`. -/
def addRange (cc : CharClass) (r : CharRange) : CharClass :=
  ⟨cc.ranges.msInsert r⟩

/-- `From<CharRange> for CharClass`. -/
def ofRange (r : CharRange) : CharClass := new.addRange r

/-- `From<char> for CharClass`. -/
def ofChar (c : UChar) : CharClass := ofRange (CharRange.new_single c)

/-- `From<Vec<CharRange>> for CharClass` / `Extend<CharRange>`. -/
def ofRanges (rs : List CharRange) : CharClass :=
  rs.foldl addRange new

/-- `CharClass::intersection`: the union of pairwise range
intersections. -/
def intersection (cc other : CharClass) : CharClass :=
  cc.ranges.values.foldl
    (fun acc r =>
      (other.ranges.values.filterMap (fun r' => r.intersection r')).foldl
        addRange acc)
    new

/-- `CharClass::copy_from`. -/
def copyFrom (cc other : CharClass) : CharClass :=
  other.ranges.values.foldl addRange cc

end CharClass

/-- The scalar-value interval limits from `src/regexp2/src/class.rs`. -/
def USV_END_1 : Nat := 0xd7ff
/-- Lower limit of the upper scalar-value interval. -/
def USV_START_2 : Nat := 0xe000
/-- Upper limit of the upper scalar-value interval. -/
def USV_END_2 : Nat := 0x10ffff

namespace CharRange

/-- `shift_char(c, false)` of `CharRange::complement`: shift down by
one and convert back to `char`; `none` models the `unwrap` panic when
the shifted value is a surrogate. -/
def shiftDown (c : UChar) : Option UChar := charOfNat? (c.val - 1)

/-- `shift_char(c, true)` of `CharRange::complement`. -/
def shiftUp (c : UChar) : Option UChar := charOfNat? (c.val + 1)

/-- The pieces `CharRange::complement` pushes for the side below
`self.start`. -/
def lowComp (r : CharRange) : Option (List CharRange) :=
  if r.start.val > USV_START_2 then
    (shiftDown r.start).bind fun d =>
      some [CharRange.new (uch USV_START_2) d,
            CharRange.new (uch 0) (uch USV_END_1)]
  else if r.start.val > 0 then
    (shiftDown r.start).bind fun d => some [CharRange.new (uch 0) d]
  else some []

/-- The pieces `CharRange::complement` pushes for the side above
`self.end`. -/
def highComp (r : CharRange) : Option (List CharRange) :=
  if r.endc.val < USV_END_1 then
    (shiftUp r.endc).bind fun u =>
      some [CharRange.new u (uch USV_END_1),
            CharRange.new (uch USV_START_2) (uch USV_END_2)]
  else if r.endc.val < USV_END_2 then
    (shiftUp r.endc).bind fun u => some [CharRange.new u (uch USV_END_2)]
  else some []

/-- `CharRange::complement` from `src/regexp2/src/class.rs`.  The Rust
code converts shifted code points back to `char` with
`try_into().unwrap()`, which panics when the shifted value lands in the
surrogate gap (`start == U+E000` or `end == U+D7FF`); `none` models
that panic. -/
def complement (r : CharRange) : Option (List CharRange) := do
  let lowPieces ← lowComp r
  let highPieces ← highComp r
  pure (lowPieces ++ highPieces)

end CharRange

namespace CharClass

end CharClass

/-- Left-to-right traversal of an `Option`-valued function over a list,
failing (panicking) as soon as one element fails. -/
def mapOpt {α β : Type} (f : α → Option β) : List α → Option (List β)
  | [] => some []
  | x :: xs => do
    let y ← f x
    let ys ← mapOpt f xs
    some (y :: ys)

namespace CharClass

/-- `CharClass::complement`: fold of `intersection` over the per-range
complements; the empty class yields the empty class
(`unwrap_or_else(CharClass::new)`).  `none` models a panic inside
`CharRange::complement`. -/
def complement (cc : CharClass) : Option CharClass := do
  let pieces ← mapOpt (fun r => (r.complement).map ofRanges) cc.ranges.values
  match pieces with
  | [] => pure new
  | first :: rest => pure (rest.foldl intersection first)

/-- `CharClass::newline`. -/
def newline : CharClass := ofChar (uch 10)

/-- `CharClass::all_but_newline` (used for the wildcard dot): the
complement of the newline class; `none` would model a panic, which does
not occur for this class. -/
def all_but_newline : Option CharClass := newline.complement

/-- `CharClass::word`: `[A-Za-z0-9_]`. -/
def word : CharClass :=
  ofRanges [CharRange.new (uch 65) (uch 90), CharRange.new (uch 97) (uch 122),
            CharRange.new (uch 48) (uch 57), CharRange.new (uch 95) (uch 95)]

/-- `CharClass::whitespace`: the enumerated characters plus
`U+2000..U+200A`. -/
def whitespace : CharClass :=
  (ofRanges ([32, 0xc, 10, 13, 9, 0xb, 0xa0, 0x1680, 0x2028, 0x2029,
              0x202f, 0x205f, 0x3000, 0xfeff].map
    (fun n => CharRange.new_single (uch n)))).addRange
    (CharRange.new (uch 0x2000) (uch 0x200a))

/-- Modelled from the spec: the static Unicode range table
`DECIMAL_NUMBER` lives in `src/regexp2/src/ranges.rs`, which is absent
from the source snapshot; the spec treats it as an opaque data input.
The ASCII digit row stands in for the full table; no settled claim
depends on the table's contents. -/
def DECIMAL_NUMBER : List CharRange := [CharRange.new (uch 48) (uch 57)]

/-- Modelled from the spec: the static Unicode range table `LETTER`
from the missing `src/regexp2/src/ranges.rs`, likewise opaque data; the
ASCII letter rows stand in for the full table. -/
def LETTER : List CharRange :=
  [CharRange.new (uch 65) (uch 90), CharRange.new (uch 97) (uch 122)]

/-- `CharClass::decimal_number`. -/
def decimal_number : CharClass := ofRanges DECIMAL_NUMBER

/-- `CharClass::letter`. -/
def letter : CharClass := ofRanges LETTER

end CharClass

/-! ## Disjoin (`impl Disjoin for CharClass` in
`src/regexp2/src/regexp.rs` / `src/regexp2/src/class.rs`) -/

/-- Event order for the sweep: compare by position
(`sort_by(|a, b| a.0.cmp(&b.0))`). -/
def evLe (a b : Nat × Int) : Prop := a.1 ≤ b.1

instance : DecidableRel evLe := fun a b => Nat.decLe a.1 b.1

instance : IsTotal (Nat × Int) evLe := ⟨fun a b => Nat.le_total a.1 b.1⟩

instance : IsTrans (Nat × Int) evLe := ⟨fun _ _ _ => Nat.le_trans⟩

/-- The sweep of the disjoin algorithm over the sorted event list,
carrying `prev` and the cover `count`; emits a `(prev, x-1)` piece
whenever the position advances with a nonzero count. -/
def sweepNat : Nat → Int → List (Nat × Int) → List (Nat × Nat)
  | _, _, [] => []
  | prev, count, (x, c) :: rest =>
    if prev < x ∧ count ≠ 0 then
      (prev, x - 1) :: sweepNat x (count + c) rest
    else
      sweepNat x (count + c) rest

/-- The sorted event list of `disjoin`: a `(start, +1)` and an
`(end + 1, -1)` event per range, sorted by position (the Rust
`sort_by` is stable; the sweep's output depends only on the sorted
order, see `sweepNat_mem_iff`). -/
def disjoinEvents (ranges : List CharRange) : List (Nat × Int) :=
  let starts := ranges.map (fun r => (r.start.val, (1 : Int)))
  let ends := ranges.map (fun r => (r.endc.val + 1, (-1 : Int)))
  List.insertionSort evLe (starts ++ ends)

/-- Conversion of one emitted piece back into a `CharRange`
(`CharRange::new(prev.try_into().unwrap(), (x - 1).try_into().unwrap())`);
`none` models the panic on a surrogate endpoint. -/
def convPiece (p : Nat × Nat) : Option CharRange := do
  let s ← charOfNat? p.1
  let e ← charOfNat? p.2
  pure (CharRange.new s e)

/-- `<CharClass as Disjoin>::disjoin`: flatten the input classes'
ranges, sweep the sorted endpoint events, and convert each emitted
piece back to a single-range class.  The Rust code converts piece
endpoints with `try_into().unwrap()`, which panics when an endpoint is
a surrogate; `none` models that panic. -/
def disjoin (vec : List CharClass) : Option (List CharClass) := do
  let ranges := vec.flatMap (fun cc => cc.ranges.values)
  let pieces := sweepNat 0 0 (disjoinEvents ranges)
  let rs ← mapOpt convPiece pieces
  pure (rs.map CharClass.ofRange)

/-- `<CharClass as Disjoin>::contains`:
`!self.intersection(other).is_empty()`. -/
def ccOverlaps (cc other : CharClass) : Bool :=
  !(cc.intersection other).isEmpty

/-! ## NFA (`src/automata/src/nfa.rs`)

`HashSet<usize>` values are modelled as sorted duplicate-free lists of
naturals (canonical representatives of finite sets), and the transition
`Table` as an association list in first-insertion order. -/

/-- `Transition<T>` at `T = CharClass`: a symbol transition or an
epsilon transition. -/
inductive TLabel where
  | sym (cc : CharClass)
  | epsilon
deriving DecidableEq, Repr

/-- Insert into a sorted duplicate-free list of naturals. -/
def natInsert (s : List Nat) (x : Nat) : List Nat :=
  match s with
  | [] => [x]
  | y :: rest =>
    if x < y then x :: y :: rest
    else if x = y then y :: rest
    else y :: natInsert rest x

/-- Union of sorted duplicate-free lists. -/
def natUnion (a b : List Nat) : List Nat := b.foldl natInsert a

/-- The NFA of `src/automata/src/nfa.rs`. -/
structure NFA where
  startState : Nat
  totalStates : Nat
  acceptingStates : List Nat
  transition : List ((Nat × TLabel) × List Nat)
deriving DecidableEq, Repr

namespace NFA

/-- `NFA::new`. -/
def new : NFA := ⟨0, 1, [], []⟩

/-- `NFA::add_state`. -/
def addState (n : NFA) (isFinal : Bool) : NFA × Nat :=
  let label := n.totalStates
  ({ n with
      totalStates := n.totalStates + 1
      acceptingStates :=
        if isFinal then natInsert n.acceptingStates label
        else n.acceptingStates },
   label)

/-- `Table::set_or` as used by `NFA::add_transition`: extend the
destination set of an existing `(row, label)` entry, or append a fresh
entry. -/
def tblSetOr (t : List ((Nat × TLabel) × List Nat)) (row : Nat)
    (label : TLabel) (dest : Nat) : List ((Nat × TLabel) × List Nat) :=
  match t with
  | [] => [((row, label), [dest])]
  | e :: rest =>
    if e.1 = (row, label) then (e.1, natInsert e.2 dest) :: rest
    else e :: tblSetOr rest row label dest

/-- `NFA::add_transition`.  The Rust function returns `None`, leaving
the NFA unchanged, when a state is out of range; construction callers
ignore the returned marker, so the model returns the (possibly
unchanged) NFA. -/
def addTransition (n : NFA) (start fin : Nat) (label : TLabel) : NFA :=
  if n.totalStates < start + 1 || n.totalStates < fin + 1 then n
  else { n with transition := tblSetOr n.transition start label fin }

/-- `NFA::add_epsilon_transition`. -/
def addEpsilon (n : NFA) (start fin : Nat) : NFA :=
  n.addTransition start fin .epsilon

/-- `NFA::new_epsilon`. -/
def new_epsilon : NFA :=
  let (n, accepting) := new.addState true
  n.addEpsilon n.startState accepting

/-- `NFA::copy_into`: append `src`'s states and transitions to `dest`,
offset by `dest`'s state count. -/
def copyInto (dest src : NFA) : NFA :=
  let offset := dest.totalStates
  let dest := (List.range src.totalStates).foldl (fun acc _ => (acc.addState false).1) dest
  src.transition.foldl
    (fun acc e =>
      e.2.foldl (fun acc fin => acc.addTransition (e.1.1 + offset) (fin + offset) e.1.2)
        acc)
    dest

/-- `NFA::union`. -/
def nunion (c1 c2 : NFA) : NFA :=
  let (n, accepting) := new.addState true
  let startSt := n.startState
  let offset := n.totalStates
  let n := n.copyInto c1
  let n := n.addEpsilon startSt (c1.startState + offset)
  let n := c1.acceptingStates.foldl
    (fun acc f => acc.addEpsilon (f + offset) accepting) n
  let offset2 := n.totalStates
  let n := n.copyInto c2
  let n := n.addEpsilon startSt (c2.startState + offset2)
  c2.acceptingStates.foldl (fun acc f => acc.addEpsilon (f + offset2) accepting) n

/-- `NFA::concatenation`. -/
def concatenation (c1 c2 : NFA) : NFA :=
  let n := c1
  let offset := n.totalStates
  let n := n.copyInto c2
  let n := c1.acceptingStates.foldl
    (fun acc f => acc.addEpsilon f (c2.startState + offset)) n
  let n := { n with acceptingStates := [] }
  { n with
      acceptingStates :=
        c2.acceptingStates.foldl (fun acc f => natInsert acc (f + offset)) [] }

/-- `NFA::kleene_star`. -/
def kleene_star (c1 : NFA) : NFA :=
  let n := new_epsilon
  let offset := n.totalStates
  let n := n.copyInto c1
  let n := n.addEpsilon n.startState (c1.startState + offset)
  c1.acceptingStates.foldl
    (fun acc f =>
      let acc := acc.addEpsilon (f + offset) (c1.startState + offset)
      acc.acceptingStates.foldl
        (fun acc2 a => acc2.addEpsilon (f + offset) a) acc)
    n

/-- `Table::get` for the NFA transition table. -/
def tblGet (n : NFA) (row : Nat) (label : TLabel) : Option (List Nat) :=
  (n.transition.find? (fun e => e.1 = (row, label))).map (·.2)

/-- The epsilon destinations of a state (the `Epsilon` row entry of
`transitions_from`). -/
def epsDests (n : NFA) (s : Nat) : List Nat :=
  (tblGet n s .epsilon).getD []

end NFA

/-- Left-to-right `mapM` over `Option`-valued state computations,
failing as soon as one element fails (out of fuel). -/
def mapO (f : Nat → Option (List Nat)) : List Nat → Option (List (List Nat))
  | [] => some []
  | x :: xs => do
    let y ← f x
    let ys ← mapO f xs
    some (y :: ys)

namespace NFA

/-- `NFA::epsilon_closure`, which in the source is naively recursive
with no visited set and therefore need not terminate on cyclic
epsilon-graphs.  The recursion is given explicit fuel; `none` means the
recursion did not complete within the fuel, and a `none` at every fuel
is a diverging call. -/
def closureF (n : NFA) : Nat → Nat → Option (List Nat)
  | 0, _ => none
  | fuel + 1, s => do
    let css ← mapO (closureF n fuel) (n.epsDests s)
    some (natInsert (css.foldl natUnion []) s)

/-- `NFA::epsilon_closure_set`: the input set unioned with the closure
of each member. -/
def closureSetF (n : NFA) (fuel : Nat) (ss : List Nat) : Option (List Nat) := do
  let css ← mapO (n.closureF fuel) ss
  some (css.foldl natUnion ss)

/-- The destinations reachable from state `s` on input `c`: the
`Transition::Some(cc)` rows of `s` whose class contains `c`
(`PartialEq<char> for CharClass` is `contains`). -/
def symDests (n : NFA) (s : Nat) (c : UChar) : List Nat :=
  n.transition.foldl
    (fun acc e =>
      match e.1.2 with
      | .sym cc => if e.1.1 = s ∧ cc.contains c then natUnion acc e.2 else acc
      | .epsilon => acc)
    []

/-- `NFA::move_set`. -/
def moveSet (n : NFA) (ss : List Nat) (c : UChar) : List Nat :=
  ss.foldl (fun acc s => natUnion acc (n.symDests s c)) []

/-- `NFA::is_accepting_state`. -/
def isAccepting (n : NFA) (s : Nat) : Bool := n.acceptingStates.contains s

/-- The input loop of `NFA::is_match`. -/
def isMatchGo (n : NFA) (fuel : Nat) : List Nat → List UChar → Option Bool
  | ss, [] => some (ss.any n.isAccepting)
  | ss, c :: cs => do
    let ss' ← n.closureSetF fuel (n.moveSet ss c)
    n.isMatchGo fuel ss' cs

/-- `NFA::is_match`: simulate over the whole input, accepting iff the
final state set meets the accepting states.  `none` means the
epsilon-closure recursion did not finish within `fuel`. -/
def isMatchF (n : NFA) (fuel : Nat) (input : List UChar) : Option Bool := do
  let s0 ← n.closureF fuel n.startState
  n.isMatchGo fuel s0 input

end NFA

/-- `Match<T>` from `src/src/matching.rs` (the file `matching.rs` of
the `automata` crate is absent from the snapshot; its sibling copy in
`src/src` has fields `start`, `end`, `span`).  `endm` models `end`. -/
structure NMatch where
  start : Nat
  endm : Nat
  span : List UChar
deriving DecidableEq, Repr

namespace NFA

/-- The symbol loop of `NFA::find_at_impl`, enumerating the input
remaining after the `skip(start)`. -/
def findLoop (n : NFA) (fuel : Nat) (startIdx : Nat) (shortest : Bool) :
    List UChar → Nat → List UChar → List Nat → Option NMatch →
    Option (Option NMatch)
  | [], _, _, _, last => some last
  | c :: cs, i, span, ss, last => do
    let ss' ← n.closureSetF fuel (n.moveSet ss c)
    let span' := span ++ [c]
    if ss'.any n.isAccepting then
      let last' := some ⟨startIdx, i + 1, span'⟩
      if shortest then some last'
      else n.findLoop fuel startIdx shortest cs (i + 1) span' ss' last'
    else
      n.findLoop fuel startIdx shortest cs (i + 1) span' ss' last

/-- `NFA::find_at_impl`.  The outer `Option` is fuel exhaustion of the
epsilon-closure; the inner `Option` is the absence of a match. -/
def findAtImplF (n : NFA) (fuel : Nat) (input : List UChar) (start : Nat)
    (shortest : Bool) : Option (Option NMatch) :=
  let last0 : Option NMatch :=
    if n.isAccepting n.startState then some ⟨start, start, []⟩ else none
  if shortest && last0.isSome then some last0
  else do
    let s0 ← n.closureF fuel n.startState
    n.findLoop fuel start shortest (input.drop start) 0 [] s0 last0

/-- `NFA::find_at`. -/
def findAtF (n : NFA) (fuel : Nat) (input : List UChar) (start : Nat) :
    Option (Option NMatch) :=
  n.findAtImplF fuel input start false

/-- `NFA::find`. -/
def findF (n : NFA) (fuel : Nat) (input : List UChar) : Option (Option NMatch) :=
  n.findAtF fuel input 0

/-- `NFA::find_shortest_at`. -/
def findShortestAtF (n : NFA) (fuel : Nat) (input : List UChar) (start : Nat) :
    Option (Option NMatch) :=
  n.findAtImplF fuel input start true

/-- `NFA::find_shortest`. -/
def findShortestF (n : NFA) (fuel : Nat) (input : List UChar) :
    Option (Option NMatch) :=
  n.findShortestAtF fuel input 0

end NFA

/-! ## DFA (`src/automata/src/dfa.rs`) and the subset construction
(`src/automata/src/convert.rs`) -/

/-- The DFA of `src/automata/src/dfa.rs`; the `Transition<T>` wrapper
collapses to its `CharClass` payload. -/
structure DFA where
  initialState : Nat
  totalStates : Nat
  finalStates : List Nat
  transition : List ((Nat × CharClass) × Nat)
deriving DecidableEq, Repr

namespace DFA

/-- `DFA::new`. -/
def new : DFA := ⟨0, 1, [], []⟩

/-- `DFA::add_state`. -/
def addState (d : DFA) (isFinal : Bool) : DFA × Nat :=
  let label := d.totalStates
  ({ d with
      totalStates := d.totalStates + 1
      finalStates :=
        if isFinal then natInsert d.finalStates label else d.finalStates },
   label)

/-- `Table::set` as used by `DFA::add_transition`: overwrite or
append. -/
def tblSet (t : List ((Nat × CharClass) × Nat)) (row : Nat)
    (label : CharClass) (v : Nat) : List ((Nat × CharClass) × Nat) :=
  match t with
  | [] => [((row, label), v)]
  | e :: rest =>
    if e.1 = (row, label) then ((row, label), v) :: rest
    else e :: tblSet rest row label v

/-- `DFA::add_transition` (no-op when a state is out of range, the
`None` marker being ignored by construction callers). -/
def addTransition (d : DFA) (start fin : Nat) (label : CharClass) : DFA :=
  if d.totalStates < start + 1 || d.totalStates < fin + 1 then d
  else { d with transition := tblSet d.transition start label fin }

/-- `DFA::is_final_state`. -/
def isFinal (d : DFA) (s : Nat) : Bool := d.finalStates.contains s

/-- The transition taken from state `s` on symbol `c`: the row entry
whose class contains `c` (after disjoining there is at most one). -/
def findTrans (d : DFA) (s : Nat) (c : UChar) : Option Nat :=
  (d.transition.find? (fun e => e.1.1 = s ∧ (e.1.2).contains c)).map (·.2)

/-- The stream of `(state, is_final)` pairs produced by
`dfa::iter_on_next`: one item per consumed symbol, ending early when no
transition matches (stuck). -/
def steps (d : DFA) : Nat → List UChar → List (Nat × Bool)
  | _, [] => []
  | s, c :: cs =>
    match d.findTrans s c with
    | none => []
    | some s' => (s', d.isFinal s') :: d.steps s' cs

/-- `DFA::is_match` from `src/automata/src/dfa.rs`:
`self.iter_on(input).last()` — the `is_final` flag of the **last
successfully consumed symbol**, `false` when no symbol was consumed.
Note that the iterator ends both at end of input and when stuck. -/
def isMatch (d : DFA) (input : List UChar) : Bool :=
  match (d.steps d.initialState input).getLast? with
  | some (_, isFin) => isFin
  | none => false

/-- `DFA::is_match` from the sibling duplicate crate
(`src/src/dfa.rs`): consume the **whole** input, returning `false` as
soon as the machine is stuck, and accept iff the state after the final
symbol is accepting.  This is the whole-input acceptance the spec
describes. -/
def isMatchWhole (d : DFA) : Nat → List UChar → Bool
  | s, [] => d.isFinal s
  | s, c :: cs =>
    match d.findTrans s c with
    | none => false
    | some s' => d.isMatchWhole s' cs

end DFA

/-- The non-epsilon `(class, destinations)` pairs collected from a set
of NFA states (the `transition_map` of the subset construction). -/
def transitionMap (n : NFA) (ss : List Nat) : List (CharClass × List Nat) :=
  ss.flatMap (fun s =>
    n.transition.filterMap (fun e =>
      if e.1.1 = s then
        match e.1.2 with
        | .sym cc => some (cc, e.2)
        | .epsilon => none
      else none))

/-- One dequeued state of the subset construction's worklist loop
(`From<NFA<T>> for DFAFromNFA<T>` in `src/automata/src/convert.rs`).
`marked` and `unmarked` hold `(label, nfa_states)` pairs; the
epsilon-closure calls inside use the fixed fuel `cf`. -/
def subsetLoop (n : NFA) (cf : Nat) :
    Nat → DFA → List (Nat × List Nat) → List (Nat × List Nat) →
    List (Nat × List Nat) → Option (DFA × List (Nat × List Nat))
  | 0, _, _, _, _ => none
  | fuel + 1, dfa, mapping, marked, unmarked =>
    match unmarked with
    | [] => some (dfa, mapping)
    | s :: queue => do
      let tmap := transitionMap n s.2
      let djs ← disjoin (tmap.map (·.1))
      let (dfa, mapping, queue) ← djs.foldlM
        (fun (acc : DFA × List (Nat × List Nat) × List (Nat × List Nat)) t => do
          let (dfa, mapping, queue) := acc
          let moved := ((tmap.filter (fun p => ccOverlaps p.1 t)).flatMap
            (·.2)).foldl natInsert []
          let uNew ← n.closureSetF cf moved
          if s.2 = uNew then
            pure (dfa.addTransition s.1 s.1 t, mapping, queue)
          else
            match marked.find? (fun ss => ss.2 = uNew) with
            | some ex => pure (dfa.addTransition s.1 ex.1 t, mapping, queue)
            | none =>
              match queue.find? (fun ss => ss.2 = uNew) with
              | some ex => pure (dfa.addTransition s.1 ex.1 t, mapping, queue)
              | none =>
                let (dfa, label) := dfa.addState false
                let dfa :=
                  if uNew.any n.isAccepting then
                    { dfa with finalStates := natInsert dfa.finalStates label }
                  else dfa
                let dfa := dfa.addTransition s.1 label t
                pure (dfa, mapping ++ [(label, uNew)], queue ++ [(label, uNew)]))
        (dfa, mapping, queue)
      subsetLoop n cf fuel dfa mapping (marked ++ [s]) queue

/-- `From<NFA<T>> for DFAFromNFA<T>`: the subset construction.  `cf`
fuels the epsilon closures, `fuel` bounds the worklist loop; `none`
means fuel ran out (the Rust loop terminates because there are finitely
many subsets of NFA states). -/
def nfaToDFA (n : NFA) (cf fuel : Nat) : Option DFA := do
  let e0 ← n.closureF cf n.startState
  let dfa := DFA.new
  let dfa :=
    if e0.any n.isAccepting then
      { dfa with finalStates := natInsert dfa.finalStates 0 }
    else dfa
  let (dfa, _) ← subsetLoop n cf fuel dfa [(0, e0)] [] [(0, e0)]
  some dfa

/-! ## Parser (`src/regexp2/src/parser.rs`), `NFAParser` instantiation

Parse results live in `ExceptT ParseError Option`: the `Option` layer
models panics (`none` = the Rust code panicked, e.g. inside
`CharClass::complement`), the `Except` layer the returned
`ParseError`. -/

/-- `parser::Operator`. -/
inductive Operator where
  | union
  | concatenation
  | kleeneStar
  | plus
  | optional
  | leftParen
  | emptyPlaceholder
deriving DecidableEq, Repr

/-- `parser::ParseError`. -/
inductive ParseError where
  | unbalancedOperators
  | unbalancedParentheses
  | emptyCharacterClass
deriving DecidableEq, Repr

instance {ε α : Type} [DecidableEq ε] [DecidableEq α] :
    DecidableEq (Except ε α) := fun a b =>
  match a, b with
  | .error e, .error e' =>
    if h : e = e' then isTrue (by rw [h])
    else isFalse (fun hh => by cases hh; exact h rfl)
  | .ok x, .ok y =>
    if h : x = y then isTrue (by rw [h])
    else isFalse (fun hh => by cases hh; exact h rfl)
  | .error _, .ok _ => isFalse (fun hh => by cases hh)
  | .ok _, .error _ => isFalse (fun hh => by cases hh)

/-- The parsing monad: `ParseError` on top of a panic layer. -/
abbrev PM (α : Type) := ExceptT ParseError Option α

/-- A Rust panic inside the parser. -/
def ppanic {α : Type} : PM α := ExceptT.mk none

/-- Lift a possibly-panicking (`Option`) value into the parsing
monad. -/
def liftOption {α : Type} : Option α → PM α
  | some a => pure a
  | none => ppanic

/-- `parser::ParserState`, with the Rust `Vec` stacks stored
top-first. -/
structure PState where
  stack : List NFA
  opStack : List Operator
  parenCountStack : List Nat
  escaped : Bool
  insertConcat : Bool
  inCharClass : Bool
  ccBuf : CharClass × Bool
  crBuf : Option UChar × Option UChar × Option UChar
deriving DecidableEq

namespace PState

/-- `ParserState::new`. -/
def init : PState :=
  ⟨[], [], [], false, false, false, (CharClass.new, false), (none, none, none)⟩

/-- `NFAParser::shift_action`: push a fresh two-state NFA with a single
transition on the given class. -/
def shiftAction (st : PState) (c : CharClass) : PState :=
  let n0 := NFA.new
  let (n1, finalState) := n0.addState true
  let n2 := n1.addTransition n1.startState finalState (.sym c)
  { st with stack := n2 :: st.stack }

/-- `NFAParser::reduce_action`: pop the most recent operator, pop its
operand NFAs and push the constructed NFA. -/
def reduceAction (st : PState) : PM PState :=
  match st.opStack with
  | [] => throw .unbalancedOperators
  | op :: ops =>
    match op with
    | .union =>
      match st.stack with
      | c2 :: c1 :: rest =>
        pure { st with opStack := ops, stack := NFA.nunion c1 c2 :: rest }
      | _ => throw .unbalancedOperators
    | .concatenation =>
      match st.stack with
      | c2 :: c1 :: rest =>
        pure { st with opStack := ops, stack := NFA.concatenation c1 c2 :: rest }
      | _ => throw .unbalancedOperators
    | .kleeneStar =>
      match st.stack with
      | c1 :: rest =>
        pure { st with opStack := ops, stack := NFA.kleene_star c1 :: rest }
      | _ => throw .unbalancedOperators
    | .plus =>
      match st.stack with
      | c1 :: rest =>
        pure { st with opStack := ops,
                       stack := NFA.concatenation (NFA.kleene_star c1) c1 :: rest }
      | _ => throw .unbalancedOperators
    | .optional =>
      match st.stack with
      | c1 :: rest =>
        pure { st with opStack := ops,
                       stack := NFA.nunion c1 NFA.new_epsilon :: rest }
      | _ => throw .unbalancedOperators
    | .emptyPlaceholder =>
      let n := NFA.new
      let n := { n with acceptingStates := natInsert n.acceptingStates n.startState }
      pure { st with opStack := ops, stack := n :: st.stack }
    | .leftParen => throw .unbalancedParentheses

/-- `ParserState::precedence_reduce_stack`: decide whether the top
operator binds at least as tightly as the incoming one and reduce it if
so; returns whether a reduction happened. -/
def precReduce (st : PState) (op : Operator) : PM (PState × Bool) :=
  let reduce : Bool :=
    match st.opStack.head? with
    | some lastOp =>
      if lastOp = op ∧ lastOp ≠ .leftParen then true
      else if op = .union then
        decide (lastOp = .concatenation ∨ lastOp = .kleeneStar ∨
          lastOp = .plus ∨ lastOp = .optional)
      else if op = .concatenation then
        decide (lastOp = .kleeneStar ∨ lastOp = .plus ∨ lastOp = .optional)
      else if op = .kleeneStar ∨ op = .plus ∨ op = .optional then false
      else if op = .leftParen then
        decide (lastOp = .kleeneStar ∨ lastOp = .plus ∨ lastOp = .optional)
      else false
    | none => false
  if reduce then do
    let st ← st.reduceAction
    pure (st, true)
  else pure (st, false)

/-- The `while precedence_reduce_stack(&Concatenation)? {}` loop of
`handle_char_class`; each reducing iteration pops one operator, so the
operator-stack length fuels the recursion. -/
def precReduceConcatLoop : Nat → PState → PM PState
  | 0, st => pure st
  | fuel + 1, st => do
    let (st, reduced) ← st.precReduce .concatenation
    if reduced then precReduceConcatLoop fuel st else pure st

/-- `ParserState::handle_char_class`. -/
def handleCharClass (st : PState) (c : CharClass) : PM PState := do
  let st ← precReduceConcatLoop (st.opStack.length + 1) st
  let st :=
    if st.insertConcat then { st with opStack := .concatenation :: st.opStack }
    else st
  let st := st.shiftAction c
  pure { st with insertConcat := true }

/-- `ParserState::handle_literal_char`. -/
def handleLiteral (st : PState) (c : UChar) : PM PState :=
  st.handleCharClass (CharClass.ofChar c)

/-- `ParserState::handle_union`. -/
def handleUnion (st : PState) : PM PState := do
  let (st, _) ← st.precReduce .union
  pure { st with opStack := .union :: st.opStack, insertConcat := false }

/-- `ParserState::handle_kleene_star`. -/
def handleKleeneStar (st : PState) : PM PState := do
  let (st, _) ← st.precReduce .kleeneStar
  pure { st with opStack := .kleeneStar :: st.opStack, insertConcat := true }

/-- `ParserState::handle_plus`. -/
def handlePlus (st : PState) : PM PState := do
  let (st, _) ← st.precReduce .plus
  pure { st with opStack := .plus :: st.opStack, insertConcat := true }

/-- `ParserState::handle_optional`. -/
def handleOptional (st : PState) : PM PState := do
  let (st, _) ← st.precReduce .optional
  pure { st with opStack := .optional :: st.opStack, insertConcat := true }

/-- `ParserState::handle_left_paren`. -/
def handleLeftParen (st : PState) : PM PState := do
  let (st, _) ← st.precReduce .leftParen
  let st :=
    if st.insertConcat then { st with opStack := .concatenation :: st.opStack }
    else st
  pure { st with
          opStack := .leftParen :: st.opStack
          parenCountStack := st.stack.length :: st.parenCountStack
          insertConcat := false }

/-- The `while !op_stack.is_empty() && last != LeftParen` reduce loop
of `handle_right_paren`. -/
def rparenReduceLoop : Nat → PState → PM PState
  | 0, st => pure st
  | fuel + 1, st =>
    if st.opStack ≠ [] ∧ st.opStack.head? ≠ some .leftParen then do
      let st ← st.reduceAction
      rparenReduceLoop fuel st
    else pure st

/-- `ParserState::handle_right_paren`.  (The source inspects but never
pops `paren_count_stack`.) -/
def handleRightParen (st : PState) : PM PState := do
  let lastOp ←
    match st.opStack.head? with
    | some op => pure op
    | none => throw ParseError.unbalancedOperators
  let prevCount ←
    match st.parenCountStack.head? with
    | some k => pure k
    | none => throw ParseError.unbalancedParentheses
  let st ←
    if lastOp = .leftParen ∧ prevCount = st.stack.length then do
      let st :=
        match st.opStack with
        | _ :: ops => { st with opStack := Operator.emptyPlaceholder :: ops }
        | [] => st
      st.reduceAction
    else do
      let st ← rparenReduceLoop (st.opStack.length + 1) st
      match st.opStack with
      | _ :: ops => pure { st with opStack := ops }
      | [] => throw ParseError.unbalancedOperators
  pure { st with insertConcat := true }

/-- `ParserState::append_char_range_buf` (with the single recursive
retry inlined). -/
def appendBuf (st : PState) (c : UChar) : PState :=
  match st.crBuf with
  | (none, s1, s2) => { st with crBuf := (some c, s1, s2) }
  | (some s0, none, s2) =>
    if c.val = 45 then { st with crBuf := (some s0, some c, s2) }
    else
      { st with
          ccBuf := ((st.ccBuf.1).addRange (CharRange.new_single s0), st.ccBuf.2)
          crBuf := (some c, none, none) }
  | (some s0, some _, none) =>
    { st with
        ccBuf := ((st.ccBuf.1).addRange (CharRange.new s0 c), st.ccBuf.2)
        crBuf := (none, none, none) }
  | (some _, some _, some _) => st

/-- `ParserState::handle_incomplete_char_range_buf`. -/
def handleIncomplete (st : PState) : PState :=
  match st.crBuf with
  | (some s0, s1, _) =>
    let cc := (st.ccBuf.1).addRange (CharRange.new_single s0)
    let cc :=
      match s1 with
      | some s => cc.addRange (CharRange.new_single s)
      | none => cc
    { st with ccBuf := (cc, st.ccBuf.2), crBuf := (none, none, none) }
  | (none, _, _) => { st with crBuf := (none, none, none) }

/-- `ParserState::clear_char_class_buf`. -/
def clearCCBuf (st : PState) : PState :=
  { st with ccBuf := (CharClass.new, false) }

/-- `ParserState::handle_right_bracket`.  A negated class ships the
complement of the accumulated class, whose computation can panic. -/
def handleRightBracket (st : PState) : PM PState := do
  let st := { st with inCharClass := false }
  if st.crBuf.1 = none ∧ (st.ccBuf.1).ranges.isEmpty then
    throw ParseError.emptyCharacterClass
  else do
    let st := st.handleIncomplete
    let charClass ←
      if st.ccBuf.2 then liftOption (st.ccBuf.1).complement
      else pure st.ccBuf.1
    let st ← st.handleCharClass charClass
    pure st.clearCCBuf

end PState

/-- One step of `Parser::parse`: dispatch on the current pattern
character (the big `match` of `src/regexp2/src/parser.rs`). -/
def parseStep (st : PState) (c : UChar) : PM PState :=
  if c.val = 124 then  -- '|'
    if st.escaped then
      let st := { st with escaped := false }
      if st.inCharClass then pure (st.appendBuf c) else st.handleLiteral c
    else if st.inCharClass then pure (st.appendBuf c)
    else st.handleUnion
  else if c.val = 42 then  -- '*'
    if st.escaped then
      let st := { st with escaped := false }
      if st.inCharClass then pure (st.appendBuf c) else st.handleLiteral c
    else if st.inCharClass then pure (st.appendBuf c)
    else st.handleKleeneStar
  else if c.val = 43 then  -- '+'
    if st.escaped then
      let st := { st with escaped := false }
      if st.inCharClass then pure (st.appendBuf c) else st.handleLiteral c
    else if st.inCharClass then pure (st.appendBuf c)
    else st.handlePlus
  else if c.val = 63 then  -- '?'
    if st.escaped then
      let st := { st with escaped := false }
      if st.inCharClass then pure (st.appendBuf c) else st.handleLiteral c
    else if st.inCharClass then pure (st.appendBuf c)
    else st.handleOptional
  else if c.val = 40 then  -- '('
    if st.escaped then
      let st := { st with escaped := false }
      if st.inCharClass then pure (st.appendBuf c) else st.handleLiteral c
    else if st.inCharClass then pure (st.appendBuf c)
    else st.handleLeftParen
  else if c.val = 41 then  -- ')'
    if st.escaped then
      let st := { st with escaped := false }
      if st.inCharClass then pure (st.appendBuf c) else st.handleLiteral c
    else if st.inCharClass then pure (st.appendBuf c)
    else st.handleRightParen
  else if c.val = 91 then  -- '['
    if st.inCharClass then pure (st.appendBuf c)
    else if st.escaped then
      let st := { st with escaped := false }
      st.handleLiteral c
    else pure ({ st with inCharClass := true }).clearCCBuf
  else if c.val = 93 then  -- ']'
    if st.escaped then
      let st := { st with escaped := false }
      if st.inCharClass then pure (st.appendBuf c) else st.handleLiteral c
    else if st.inCharClass then st.handleRightBracket
    else st.handleLiteral c
  else if c.val = 92 then  -- '\\'
    if st.escaped then
      let st := { st with escaped := false }
      st.handleLiteral c
    else pure { st with escaped := true }
  else if c.val = 94 then  -- '^'
    if st.escaped then
      let st := { st with escaped := false }
      if st.inCharClass then pure (st.appendBuf c) else st.handleLiteral c
    else if st.inCharClass then
      if st.crBuf.1 = none ∧ (st.ccBuf.1).ranges.isEmpty then
        pure { st with ccBuf := (st.ccBuf.1, true) }
      else pure (st.appendBuf c)
    else st.handleLiteral c
  else if c.val = 46 then  -- '.'
    if st.escaped then
      let st := { st with escaped := false }
      if st.inCharClass then pure (st.appendBuf c) else st.handleLiteral c
    else if st.inCharClass then pure (st.appendBuf c)
    else do
      let cc ← liftOption CharClass.all_but_newline
      st.handleCharClass cc
  else  -- the default arm: shorthand escapes and ordinary literals
    if st.escaped then
      let st := { st with escaped := false }
      let special : Option (Option CharClass) :=
        if c.val = 100 then some (some CharClass.decimal_number)
        else if c.val = 68 then some CharClass.decimal_number.complement
        else if c.val = 119 then some (some CharClass.word)
        else if c.val = 87 then some CharClass.word.complement
        else if c.val = 110 then some (some (CharClass.ofChar (uch 10)))
        else if c.val = 115 then some (some CharClass.whitespace)
        else if c.val = 83 then some CharClass.whitespace.complement
        else none
      match special with
      | some occ => do
        let cc ← liftOption occ
        if st.inCharClass then
          let st := st.handleIncomplete
          pure { st with ccBuf := ((st.ccBuf.1).copyFrom cc, st.ccBuf.2) }
        else st.handleCharClass cc
      | none =>
        if st.inCharClass then pure (st.appendBuf c) else st.handleLiteral c
    else if st.inCharClass then pure (st.appendBuf c)
    else st.handleLiteral c

/-- The character loop of `Parser::parse`. -/
def parseLoop : List UChar → PState → PM PState
  | [], st => pure st
  | c :: cs, st => do
    let st ← parseStep st c
    parseLoop cs st

/-- The final `while !state.op_stack.is_empty()` reduce loop of
`Parser::parse`. -/
def finalReduceLoop : Nat → PState → PM PState
  | 0, st => pure st
  | fuel + 1, st =>
    if st.opStack.isEmpty then pure st
    else do
      let st ← st.reduceAction
      finalReduceLoop fuel st

/-- `Parser::parse` for the `NFAParser`: run the character loop, push
an `EmptyPlaceholder` for the empty pattern, reduce the remaining
operators, and return the top of the operand stack (absent when the
stack is empty). -/
def parseNFA (expr : List UChar) : PM (Option NFA) := do
  let st ← parseLoop expr PState.init
  let st :=
    if expr.isEmpty then
      { st with opStack := Operator.emptyPlaceholder :: st.opStack }
    else st
  let st ← finalReduceLoop (st.opStack.length + 1) st
  pure st.stack.head?

/-- `RegExp::new_nfa` from `src/regexp2/src/regexp.rs`:
`parser.parse(expr)?.unwrap()`.  The outer `Option` models panics:
either a panic inside parsing, or the `unwrap` panic when `parse`
returns `Ok(None)`. -/
def newNFA (expr : List UChar) : Option (Except ParseError NFA) :=
  match (parseNFA expr).run with
  | none => none
  | some (.error e) => some (.error e)
  | some (.ok none) => none
  | some (.ok (some n)) => some (.ok n)

/-! ## Concrete patterns and automata used in the claim theorems -/

/-- The pattern `a`. -/
def patA : List UChar := [uch 97]

/-- The pattern `ab`. -/
def patAB : List UChar := [uch 97, uch 98]

/-- The pattern `ab\` (trailing backslash). -/
def patABBS : List UChar := [uch 97, uch 98, uch 92]

/-- The pattern consisting of a single backslash. -/
def patBS : List UChar := [uch 92]

/-- The pattern `(a*)*`. -/
def patStarStar : List UChar := [uch 40, uch 97, uch 42, uch 41, uch 42]

/-- The input string `ab`. -/
def inputAB : List UChar := [uch 97, uch 98]

/-- The input string `ba`. -/
def inputBA : List UChar := [uch 98, uch 97]

/-- The NFA compiled from the pattern `a`: two states with a single
transition on the class `{a}`. -/
def nfaA : NFA :=
  ⟨0, 2, [1], [((0, .sym (CharClass.ofChar (uch 97))), [1])]⟩

/-- The DFA obtained from `nfaA` by the subset construction. -/
def dfaA : DFA :=
  ⟨0, 2, [1], [((0, CharClass.ofChar (uch 97)), 1)]⟩

/-- The NFA compiled from `(a*)*`.  Its epsilon-transition graph has
the cycle `2 -> 3 -> 2` (state 3, the inner star's accepting state,
loops back to the inner star's start state 2). -/
def nfaStarStar : NFA :=
  ⟨0, 6, [1],
   [((0, .epsilon), [1, 2]), ((2, .epsilon), [3, 4]),
    ((4, .sym (CharClass.ofChar (uch 97))), [5]),
    ((5, .epsilon), [3, 4]), ((3, .epsilon), [1, 2])]⟩

/-- A class has proper ranges when every stored range satisfies
`start ≤ end`; every range built by the parser's surface syntax and by
the spec's data-model invariant is proper. -/
def ProperClass (cc : CharClass) : Prop :=
  ∀ r ∈ cc.ranges.values, r.start.val ≤ r.endc.val

instance (cc : CharClass) : Decidable (ProperClass cc) := by
  unfold ProperClass; infer_instance

/-- The match-field adjustment that `find_at` actually applies relative
to `find` on the dropped input: the `start` field is set to the offset,
and the `end` field is set to the offset only for the zero-length
initial match (`end = 0`); the `end` of a nonempty match is left as the
index within the dropped input. -/
def shiftStartOnly (k : Nat) (m : NMatch) : NMatch :=
  ⟨k, if m.endm = 0 then k else m.endm, m.span⟩

/-- The NFA compiled from both `ab` and `ab\`: the concatenation of the
primitives for `a` and `b`. -/
def nfaABc : NFA :=
  ⟨0, 4, [3],
   [((0, .sym (CharClass.ofChar (uch 97))), [1]),
    ((2, .sym (CharClass.ofChar (uch 98))), [3]),
    ((1, .epsilon), [2])]⟩

/-- The malformed patterns of the spec's scenario list. -/
def patLP : List UChar := [uch 40]
/-- The pattern `)`. -/
def patRP : List UChar := [uch 41]
/-- The pattern `*`. -/
def patStar : List UChar := [uch 42]
/-- The pattern `*a`. -/
def patStarA : List UChar := [uch 42, uch 97]
/-- The pattern `a|`. -/
def patAPipe : List UChar := [uch 97, uch 124]
/-- The pattern `**`. -/
def patSS : List UChar := [uch 42, uch 42]
/-- The pattern `[]`. -/
def patEmptyBr : List UChar := [uch 91, uch 93]
/-- The pattern `(ab`. -/
def patLPab : List UChar := [uch 40, uch 97, uch 98]
/-- The pattern `]` (a stray unescaped right bracket). -/
def patRB : List UChar := [uch 93]

/-- The NFA the parser produces for the stray-`]` pattern: a literal
match of `]`. -/
def nfaRB : NFA :=
  ⟨0, 2, [1], [((0, .sym (CharClass.ofChar (uch 93))), [1])]⟩

/-- The classes of the `disjoin` panic counterexample: a range crossing
the surrogate gap together with one ending at `U+D7FF`. -/
def ccGapCross : CharClass := CharClass.ofRange ⟨uch 0x100, uch 0xE000⟩

/-- The class `[A-\u{D7FF}]`. -/
def ccLowFull : CharClass := CharClass.ofRange ⟨uch 0x41, uch 0xD7FF⟩

/-- The running cover count of the sweep after all events at positions
`≤ n`: the sum of the deltas of those events. -/
def countAt (evs : List (Nat × Int)) (n : Nat) : Int :=
  ((evs.filter (fun e => e.1 ≤ n)).map (·.2)).sum

/-- Well-formedness of the ordered map underlying a merge-set, as
maintained by every constructor in `class.rs` on proper ranges: keys
strictly ascending, each key equal to its range's start (the range's
`key()`), and each stored range proper. -/
def MSetWF (m : MSet) : Prop :=
  List.Pairwise (fun a b => a.1.val < b.1.val) m ∧
    ∀ e ∈ m, e.1 = e.2.start ∧ e.2.start.val ≤ e.2.endc.val

/-- Well-formedness of a character class: its merge-set is
well-formed. -/
def CCWF (cc : CharClass) : Prop := MSetWF cc.ranges

/-- Decidability of the merge-set invariant, for concrete checks. -/
instance (m : MSet) : Decidable (MSetWF m) := by
  unfold MSetWF; infer_instance

/-- Decidability of class well-formedness, for concrete checks. -/
instance (cc : CharClass) : Decidable (CCWF cc) := by
  unfold CCWF; infer_instance

/-- A concrete class spanning the surrogate gap, `[U+D000-U+E500]`: both
of its complements avoid the surrogate boundaries, so the double
complement returns normally. -/
def ccD : CharClass :=
  CharClass.ofRange (CharRange.new (uch 0xd000) (uch 0xe500))

/-- The value of `ccD.complement()`. -/
def ccDc : CharClass :=
  CharClass.ofRanges [CharRange.new (uch 0) (uch 0xcfff),
                      CharRange.new (uch 0xe501) (uch 0x10ffff)]

/-- The value of `ccD.complement().complement()`: the same code points
as `ccD`, split at the surrogate gap. -/
def ccDcc : CharClass :=
  CharClass.ofRanges [CharRange.new (uch 0xd000) (uch 0xd7ff),
                      CharRange.new (uch 0xe000) (uch 0xe500)]

/-! ## Theorems -/

theorem charOfNat?_val {n : Nat} {c : UChar} (h : charOfNat? n = some c) :
    c.val = n := by
  unfold charOfNat? at h
  split at h
  · cases h; rfl
  · cases h

/-- C1: the claim states that the NFA-backed and the DFA-backed engine
accept exactly the same inputs under `is_match`.  The code violates
this: for the pattern `a` and the input `ab`, the NFA engine (which
simulates the whole input) rejects, but the DFA engine — whose
`is_match` takes the `is_final` flag of the last *successfully
consumed* symbol and therefore ignores trailing input on which the
automaton is stuck — accepts. -/
theorem c1_cross_engine_inequivalent :
    (parseNFA patA).run = some (.ok (some nfaA)) ∧
    nfaToDFA nfaA 9 20 = some dfaA ∧
    NFA.isMatchF nfaA 9 inputAB = some false ∧
    DFA.isMatch dfaA inputAB = true := by
  refine ⟨by decide, by decide, by decide, by decide⟩

/-- C2: the claim states that `is_match(s)` is true iff simulating over
the whole of `s` ends in an accepting state, so an accepted prefix with
trailing symbols (pattern `a` on `ab`) must be rejected.  The DFA built
from pattern `a` violates this: `DFA::is_match` returns `true` on `ab`
because the iterator stops at the stuck symbol `b` and `last()` yields
the accepting flag of the `a` step, whereas the whole-input acceptance
(`isMatchWhole`, as implemented by the sibling `src/src/dfa.rs`) is
`false`. -/
theorem c2_is_match_accepts_trailing_input :
    (parseNFA patA).run = some (.ok (some nfaA)) ∧
    nfaToDFA nfaA 9 20 = some dfaA ∧
    DFA.isMatch dfaA inputAB = true ∧
    DFA.isMatchWhole dfaA dfaA.initialState inputAB = false := by
  refine ⟨by decide, by decide, by decide, by decide⟩

/-- C4: the claim states that compiling any pattern never panics; but
for the pattern consisting of a single backslash, `Parser::parse`
returns `Ok(None)` and `RegExp::new_nfa`'s `parse(expr)?.unwrap()`
panics on the `None` (modelled as `newNFA patBS = none`). -/
theorem c4_single_backslash_new_nfa_panics :
    (parseNFA patBS).run = some (.ok none) ∧ newNFA patBS = none := by
  refine ⟨by decide, by decide⟩

/-- C6: the claim states that after any insertion sequence the stored
values are pairwise non-intersecting.  Inserting `[a,b]`, `[d,e]`,
`[g,h]` and then the spanning `[a,h]` violates it: `insert` merges only
the predecessor and the successor entry, so the stored set ends up
holding both `[a,h]` and `[g,h]`, which intersect. -/
theorem c6_mergeset_keeps_intersecting_values :
    ([CharRange.new (uch 97) (uch 98), CharRange.new (uch 100) (uch 101),
      CharRange.new (uch 103) (uch 104),
      CharRange.new (uch 97) (uch 104)].foldl MSet.msInsert []) =
      [(uch 97, CharRange.new (uch 97) (uch 104)),
       (uch 103, CharRange.new (uch 103) (uch 104))] ∧
    CharRange.intersectsWith (CharRange.new (uch 97) (uch 104))
      (CharRange.new (uch 103) (uch 104)) = true := by
  refine ⟨by decide, by decide⟩

/-- C9 counterexample: the claim states that a stray unescaped `]`
outside any bracket expression produces a `ParseError`; instead the
parser treats it as a literal and compiles it to the two-state NFA
matching `]`. -/
theorem c9_counterexample_stray_bracket_parses :
    (parseNFA patRB).run = some (.ok (some nfaRB)) := by decide

/-- C9 amended: parsing the malformed patterns `(`, `)`, `*`, `*a`,
`a|`, `**`, `[]` and `(ab` each returns a `ParseError` (and no panic),
while a stray unescaped `]` outside a bracket expression is treated as
a literal atom rather than an error. -/
theorem c9_malformed_patterns_error :
    (parseNFA patLP).run = some (.error .unbalancedParentheses) ∧
    (parseNFA patRP).run = some (.error .unbalancedOperators) ∧
    (parseNFA patStar).run = some (.error .unbalancedOperators) ∧
    (parseNFA patStarA).run = some (.error .unbalancedOperators) ∧
    (parseNFA patAPipe).run = some (.error .unbalancedOperators) ∧
    (parseNFA patSS).run = some (.error .unbalancedOperators) ∧
    (parseNFA patEmptyBr).run = some (.error .emptyCharacterClass) ∧
    (parseNFA patLPab).run = some (.error .unbalancedParentheses) ∧
    (parseNFA patRB).run = some (.ok (some nfaRB)) := by
  refine ⟨by decide, by decide, by decide, by decide, by decide, by decide,
    by decide, by decide, by decide⟩

/-- C10: a trailing unescaped backslash is silently discarded: `ab\`
parses to exactly the same NFA as `ab` (hence accepts exactly the same
inputs), and the single-backslash pattern makes `parse` return
`Ok(None)` rather than an error. -/
theorem c10_trailing_backslash_discarded :
    (parseNFA patABBS).run = some (.ok (some nfaABc)) ∧
    (parseNFA patAB).run = some (.ok (some nfaABc)) ∧
    (parseNFA patBS).run = some (.ok none) := by
  refine ⟨by decide, by decide, by decide⟩

/-- In the NFA of `(a*)*`, the epsilon-closure recursion on the cycle
`2 -> 3 -> 2` fails at every fuel: it diverges. -/
theorem nfaSS_closure_cycle (f : Nat) :
    NFA.closureF nfaStarStar f 2 = none ∧ NFA.closureF nfaStarStar f 3 = none := by
  induction f with
  | zero => exact ⟨rfl, rfl⟩
  | succ f ih =>
    have hd2 : nfaStarStar.epsDests 2 = [3, 4] := by decide
    have hd3 : nfaStarStar.epsDests 3 = [1, 2] := by decide
    constructor
    · show NFA.closureF nfaStarStar (f + 1) 2 = none
      simp only [NFA.closureF, hd2, mapO, ih.2, Option.none_bind, Option.bind_eq_bind]
    · show NFA.closureF nfaStarStar (f + 1) 3 = none
      simp only [NFA.closureF, hd3, mapO, Option.bind_eq_bind]
      cases hf1 : NFA.closureF nfaStarStar f 1 with
      | none => simp
      | some y => simp [ih.1]

/-- The epsilon closure of the start state of the `(a*)*` NFA fails at
every fuel. -/
theorem nfaSS_closure_start (f : Nat) :
    NFA.closureF nfaStarStar f 0 = none := by
  cases f with
  | zero => rfl
  | succ f =>
    have hd0 : nfaStarStar.epsDests 0 = [1, 2] := by decide
    show NFA.closureF nfaStarStar (f + 1) 0 = none
    simp only [NFA.closureF, hd0, mapO, Option.bind_eq_bind]
    cases hf1 : NFA.closureF nfaStarStar f 1 with
    | none => simp
    | some y => simp [(nfaSS_closure_cycle f).1]

/-- C5: the claim states that NFA-backed `is_match` terminates on every
input for every successfully parsed pattern, the epsilon closure being
total even on cyclic epsilon-graphs such as the one of `(a*)*`.  The
code violates this: `epsilon_closure` is naively recursive with no
visited set, and on the NFA parsed from `(a*)*` (epsilon cycle
`2 -> 3 -> 2`) the fueled closure — and hence `is_match` — returns
`none` at every fuel and every input: the recursion diverges. -/
theorem c5_epsilon_closure_diverges :
    (parseNFA patStarStar).run = some (.ok (some nfaStarStar)) ∧
    ∀ fuel input, NFA.isMatchF nfaStarStar fuel input = none := by
  refine ⟨by decide, fun fuel input => ?_⟩
  have h0 : NFA.closureF nfaStarStar fuel nfaStarStar.startState = none :=
    nfaSS_closure_start fuel
  simp only [NFA.isMatchF, h0, Option.none_bind, Option.bind_eq_bind]

/-- C3 counterexample: the claim states `find_at(s, k)` equals
`find(s[k..])` with both `start` and `end` shifted up by `k`.  For the
pattern `a`, input `ba`, `k = 1`: `find_at` returns the match
`(1, 1, "a")` while `find("a")` returns `(0, 1, "a")` — the `end` index
is not shifted (and `end - start = 0 ≠ 1 = |span|`). -/
theorem c3_counterexample_end_not_shifted :
    NFA.findAtF nfaA 9 inputBA 1 = some (some ⟨1, 1, [uch 97]⟩) ∧
    NFA.findF nfaA 9 (inputBA.drop 1) = some (some ⟨0, 1, [uch 97]⟩) ∧
    NFA.findAtF nfaA 9 inputBA 1 ≠
      (NFA.findF nfaA 9 (inputBA.drop 1)).map
        (Option.map (fun m => ⟨m.start + 1, m.endm + 1, m.span⟩)) := by
  refine ⟨by decide, by decide, by decide⟩

/-- The symbol loop of `find_at_impl` relates a run with start offset
`k` to the run with start offset `0` over the same remaining input:
results agree up to `shiftStartOnly k` on the recorded match. -/
theorem findLoop_shift (n : NFA) (fuel k : Nat) (shortest : Bool) :
    ∀ (rest : List UChar) (i : Nat) (span : List UChar) (ss : List Nat)
      (last : Option NMatch),
      n.findLoop fuel k shortest rest i span ss
          (last.map (shiftStartOnly k)) =
        (n.findLoop fuel 0 shortest rest i span ss last).map
          (Option.map (shiftStartOnly k)) := by
  intro rest
  induction rest with
  | nil =>
    intro i span ss last
    simp [NFA.findLoop]
  | cons c cs ih =>
    intro i span ss last
    simp only [NFA.findLoop, Option.bind_eq_bind]
    cases hcl : n.closureSetF fuel (n.moveSet ss c) with
    | none => simp
    | some ss' =>
      simp only [Option.some_bind]
      have hmap : (some (⟨0, i + 1, span ++ [c]⟩ : NMatch)).map (shiftStartOnly k) =
          some (⟨k, i + 1, span ++ [c]⟩ : NMatch) := by
        simp [shiftStartOnly, Nat.succ_ne_zero]
      by_cases hAcc : ss'.any n.isAccepting = true
      · cases shortest with
        | true => simp [hAcc, hmap]
        | false =>
          simp only [hAcc, if_true, Bool.false_eq_true, if_false]
          rw [← hmap, ih]
      · simp only [Bool.not_eq_true] at hAcc
        simp only [hAcc, Bool.false_eq_true, if_false]
        exact ih _ _ _ _

/-- C3 amended: for the NFA engine, `find_at(s, k)` (and likewise
`find_shortest_at`) returns exactly `find(s[k..])`
(`find_shortest(s[k..])`) with the match's `start` field set to `k`
and, for the zero-length initial match only, the `end` field also set
to `k`; the `end` of a nonempty match is the unshifted index within
`s[k..]`, so `end - start = |span|` fails for `k > 0`. -/
theorem c3_find_at_shifts_start_only (n : NFA) (fuel : Nat)
    (input : List UChar) (k : Nat) (shortest : Bool)
    (_hk : k ≤ input.length) :
    n.findAtImplF fuel input k shortest =
      (n.findAtImplF fuel (input.drop k) 0 shortest).map
        (Option.map (shiftStartOnly k)) := by
  unfold NFA.findAtImplF
  have hlast : (if n.isAccepting n.startState then
          some (⟨0, 0, []⟩ : NMatch) else none).map (shiftStartOnly k) =
        (if n.isAccepting n.startState then some (⟨k, k, []⟩ : NMatch) else none) := by
    by_cases h : n.isAccepting n.startState = true <;> simp [h, shiftStartOnly]
  by_cases h : n.isAccepting n.startState = true
  · simp only [h, if_true]
    cases shortest with
    | true => simp [shiftStartOnly]
    | false =>
      simp only [Bool.false_and, Bool.false_eq_true, if_false,
        Option.bind_eq_bind, List.drop_zero]
      cases hcl : n.closureF fuel n.startState with
      | none => simp
      | some s0 =>
        simp only [Option.some_bind]
        have := findLoop_shift n fuel k false (input.drop k) 0 [] s0
          (some ⟨0, 0, []⟩)
        simp only [Option.map_some, shiftStartOnly] at this
        simpa using this
  · simp only [Bool.not_eq_true] at h
    simp only [h, Bool.false_eq_true, if_false, Option.isSome_none,
      Bool.and_false, Option.bind_eq_bind, List.drop_zero]
    cases hcl : n.closureF fuel n.startState with
    | none => simp
    | some s0 =>
      simp only [Option.some_bind]
      have := findLoop_shift n fuel k shortest (input.drop k) 0 [] s0 none
      simpa using this

/-- Witness for `c3_find_at_shifts_start_only` at the concrete pattern
`a`, input `ba`, offset `k = 1`. -/
theorem c3_find_at_shifts_start_only_witness :
    (1 ≤ inputBA.length) ∧
    NFA.findAtImplF nfaA 9 inputBA 1 false =
      (NFA.findAtImplF nfaA 9 (inputBA.drop 1) 0 false).map
        (Option.map (shiftStartOnly 1)) :=
  ⟨by decide, c3_find_at_shifts_start_only nfaA 9 inputBA 1 false (by decide)⟩

/-- C7 counterexample: the claim states `disjoin` returns a piece list
for every finite collection of classes; on the proper-ranged classes
`{[U+0100-U+E000]}` and `{[A-U+D7FF]}` the sweep emits a piece starting
at the surrogate `U+D800` and the `try_into().unwrap()` panics
(modelled as `none`). -/
theorem c7_counterexample_disjoin_panics :
    ProperClass ccGapCross ∧ ProperClass ccLowFull ∧
    disjoin [ccGapCross, ccLowFull] = none := by
  refine ⟨by decide, by decide, by decide⟩

/-! ### Correctness of the disjoin sweep (C7) -/

theorem sweepNat_fst_ge :
    ∀ (evs : List (Nat × Int)) (prev : Nat) (count : Int),
      (∀ e ∈ evs, prev ≤ e.1) → List.Sorted evLe evs →
      ∀ p ∈ sweepNat prev count evs, prev ≤ p.1 := by
  intro evs
  induction evs with
  | nil => intro prev count _ _ p hp; simp [sweepNat] at hp
  | cons e rest ih =>
    intro prev count hall hsort p hp
    obtain ⟨x, c⟩ := e
    have hx : prev ≤ x := hall (x, c) (List.mem_cons_self _ _)
    rw [List.sorted_cons] at hsort
    obtain ⟨hhead, hsort'⟩ := hsort
    have hall' : ∀ e ∈ rest, x ≤ e.1 := fun e he => hhead e he
    rw [sweepNat] at hp
    by_cases hcond : prev < x ∧ count ≠ 0
    · rw [if_pos hcond] at hp
      rcases List.mem_cons.1 hp with rfl | hp'
      · exact Nat.le_refl _
      · exact Nat.le_trans hx (ih x (count + c) hall' hsort' p hp')
    · rw [if_neg hcond] at hp
      exact Nat.le_trans hx (ih x (count + c) hall' hsort' p hp)

theorem countAt_nil (n : Nat) : countAt [] n = 0 := rfl

theorem countAt_cons (e : Nat × Int) (evs : List (Nat × Int)) (n : Nat) :
    countAt (e :: evs) n = (if e.1 ≤ n then e.2 else 0) + countAt evs n := by
  by_cases h : e.1 ≤ n <;> simp [countAt, List.filter_cons, h]

theorem countAt_zero_of_gt {evs : List (Nat × Int)} {n : Nat}
    (h : ∀ e ∈ evs, n < e.1) : countAt evs n = 0 := by
  induction evs with
  | nil => rfl
  | cons e rest ih =>
    rw [countAt_cons, if_neg (by simpa using h e (List.mem_cons_self _ _)),
      ih (fun e' he' => h e' (List.mem_cons_of_mem _ he'))]
    simp

/-- The membership characterisation of the sweep: a position `n` is
covered by an emitted piece iff it lies beyond `prev`, strictly before
some event, and the running count at `n` is nonzero. -/
theorem sweepNat_mem_iff :
    ∀ (evs : List (Nat × Int)) (prev : Nat) (count : Int),
      List.Sorted evLe evs → (∀ e ∈ evs, prev ≤ e.1) → ∀ n : Nat,
      (∃ p ∈ sweepNat prev count evs, p.1 ≤ n ∧ n ≤ p.2) ↔
        (prev ≤ n ∧ (∃ e ∈ evs, n < e.1) ∧ count + countAt evs n ≠ 0) := by
  intro evs
  induction evs with
  | nil => intro prev count _ _ n; simp [sweepNat, countAt]
  | cons e rest ih =>
    intro prev count hsort hall n
    obtain ⟨x, c⟩ := e
    have hx : prev ≤ x := hall (x, c) (List.mem_cons_self _ _)
    rw [List.sorted_cons] at hsort
    obtain ⟨hhead, hsort'⟩ := hsort
    have hall' : ∀ e ∈ rest, x ≤ e.1 := fun e he => hhead e he
    have IH := ih x (count + c) hsort' hall' n
    rw [sweepNat]
    by_cases hn : n < x
    · have hS' : ∀ p ∈ sweepNat x (count + c) rest, ¬(p.1 ≤ n ∧ n ≤ p.2) := by
        intro p hp hcov
        have := sweepNat_fst_ge rest x (count + c) hall' hsort' p hp
        omega
      have hca : countAt ((x, c) :: rest) n = 0 := by
        refine countAt_zero_of_gt ?_
        intro e he
        rcases List.mem_cons.1 he with rfl | he'
        · exact hn
        · exact Nat.lt_of_lt_of_le hn (hall' e he')
      by_cases hcond : prev < x ∧ count ≠ 0
      · rw [if_pos hcond]
        constructor
        · rintro ⟨p, hp, h1, h2⟩
          rcases List.mem_cons.1 hp with rfl | hp'
          · exact ⟨h1, ⟨(x, c), List.mem_cons_self _ _, hn⟩,
              by rw [hca]; simpa using hcond.2⟩
          · exact absurd ⟨h1, h2⟩ (hS' p hp')
        · rintro ⟨h1, _, _⟩
          exact ⟨(prev, x - 1), List.mem_cons_self _ _, h1, by omega⟩
      · rw [if_neg hcond]
        constructor
        · rintro ⟨p, hp, h1, h2⟩
          exact absurd ⟨h1, h2⟩ (hS' p hp)
        · rintro ⟨h1, _, h3⟩
          rw [hca, Int.add_zero] at h3
          exact absurd ⟨by omega, h3⟩ hcond
    · push_neg at hn
      have hsplit : count + countAt ((x, c) :: rest) n =
          (count + c) + countAt rest n := by
        rw [countAt_cons, if_pos hn]; omega
      have hex : (∃ e ∈ (x, c) :: rest, n < e.1) ↔ ∃ e ∈ rest, n < e.1 := by
        constructor
        · rintro ⟨e, he, hne⟩
          rcases List.mem_cons.1 he with rfl | he'
          · omega
          · exact ⟨e, he', hne⟩
        · rintro ⟨e, he, hne⟩
          exact ⟨e, List.mem_cons_of_mem _ he, hne⟩
      by_cases hcond : prev < x ∧ count ≠ 0
      · rw [if_pos hcond]
        constructor
        · rintro ⟨p, hp, h1, h2⟩
          rcases List.mem_cons.1 hp with rfl | hp'
          · simp only at h1 h2; omega
          · obtain ⟨_, hE, hC⟩ := IH.1 ⟨p, hp', h1, h2⟩
            exact ⟨by omega, hex.2 hE, by omega⟩
        · rintro ⟨h1, hE, h3⟩
          obtain ⟨p, hp, hc⟩ := IH.2 ⟨hn, hex.1 hE, by omega⟩
          exact ⟨p, List.mem_cons_of_mem _ hp, hc⟩
      · rw [if_neg hcond]
        constructor
        · rintro ⟨p, hp, h1, h2⟩
          obtain ⟨_, hE, hC⟩ := IH.1 ⟨p, hp, h1, h2⟩
          exact ⟨by omega, hex.2 hE, by omega⟩
        · rintro ⟨h1, hE, h3⟩
          exact IH.2 ⟨hn, hex.1 hE, by omega⟩

/-- The emitted pieces are strictly ordered: each piece ends before the
next begins. -/
theorem sweepNat_pairwise :
    ∀ (evs : List (Nat × Int)) (prev : Nat) (count : Int),
      List.Sorted evLe evs → (∀ e ∈ evs, prev ≤ e.1) →
      List.Pairwise (fun p q : Nat × Nat => p.2 < q.1)
        (sweepNat prev count evs) := by
  intro evs
  induction evs with
  | nil => intro prev count _ _; simp [sweepNat]
  | cons e rest ih =>
    intro prev count hsort hall
    obtain ⟨x, c⟩ := e
    have hx : prev ≤ x := hall (x, c) (List.mem_cons_self _ _)
    rw [List.sorted_cons] at hsort
    obtain ⟨hhead, hsort'⟩ := hsort
    have hall' : ∀ e ∈ rest, x ≤ e.1 := fun e he => hhead e he
    rw [sweepNat]
    by_cases hcond : prev < x ∧ count ≠ 0
    · rw [if_pos hcond]
      refine List.Pairwise.cons ?_ (ih x (count + c) hsort' hall')
      intro q hq
      have := sweepNat_fst_ge rest x (count + c) hall' hsort' q hq
      simp only
      omega
    · rw [if_neg hcond]
      exact ih x (count + c) hsort' hall'

/-- No event position lies strictly inside an emitted piece. -/
theorem sweepNat_no_inner_event :
    ∀ (evs : List (Nat × Int)) (prev : Nat) (count : Int),
      List.Sorted evLe evs → (∀ e ∈ evs, prev ≤ e.1) →
      ∀ p ∈ sweepNat prev count evs, ∀ e ∈ evs,
        e.1 ≤ p.1 ∨ p.2 + 1 ≤ e.1 := by
  intro evs
  induction evs with
  | nil => intro prev count _ _ p hp; simp [sweepNat] at hp
  | cons e rest ih =>
    intro prev count hsort hall p hp e' he'
    obtain ⟨x, c⟩ := e
    have hx : prev ≤ x := hall (x, c) (List.mem_cons_self _ _)
    rw [List.sorted_cons] at hsort
    obtain ⟨hhead, hsort'⟩ := hsort
    have hall' : ∀ e ∈ rest, x ≤ e.1 := fun e he => hhead e he
    rw [sweepNat] at hp
    by_cases hcond : prev < x ∧ count ≠ 0
    · rw [if_pos hcond] at hp
      rcases List.mem_cons.1 hp with rfl | hp'
      · rcases List.mem_cons.1 he' with rfl | he''
        · right; simp only; omega
        · right; have := hall' e' he''; simp only; omega
      · rcases List.mem_cons.1 he' with rfl | he''
        · left
          exact sweepNat_fst_ge rest x (count + c) hall' hsort' p hp'
        · exact ih x (count + c) hsort' hall' p hp' e' he''
    · rw [if_neg hcond] at hp
      rcases List.mem_cons.1 he' with rfl | he''
      · left
        exact sweepNat_fst_ge rest x (count + c) hall' hsort' p hp
      · exact ih x (count + c) hsort' hall' p hp e' he''

theorem countAt_append (l1 l2 : List (Nat × Int)) (n : Nat) :
    countAt (l1 ++ l2) n = countAt l1 n + countAt l2 n := by
  simp [countAt, List.filter_append]

theorem countAt_starts (rs : List CharRange) (n : Nat) :
    countAt (rs.map (fun r => (r.start.val, (1 : Int)))) n =
      ((rs.filter (fun r => r.start.val ≤ n)).length : Int) := by
  induction rs with
  | nil => rfl
  | cons r rest ih =>
    rw [List.map_cons, countAt_cons, ih, List.filter_cons]
    by_cases h : r.start.val ≤ n <;> simp [h] <;> omega

theorem countAt_ends (rs : List CharRange) (n : Nat) :
    countAt (rs.map (fun r => (r.endc.val + 1, (-1 : Int)))) n =
      -((rs.filter (fun r => r.endc.val + 1 ≤ n)).length : Int) := by
  induction rs with
  | nil => rfl
  | cons r rest ih =>
    rw [List.map_cons, countAt_cons, ih, List.filter_cons]
    by_cases h : r.endc.val + 1 ≤ n <;> simp [h] <;> omega

/-- For proper ranges, the difference of started and finished events at
`n` counts the ranges covering `n`. -/
theorem cover_count (rs : List CharRange)
    (hproper : ∀ r ∈ rs, r.start.val ≤ r.endc.val) (n : Nat) :
    ((rs.filter (fun r => r.start.val ≤ n)).length : Int) -
        ((rs.filter (fun r => r.endc.val + 1 ≤ n)).length : Int) =
      ((rs.filter (fun r => r.start.val ≤ n ∧ n ≤ r.endc.val)).length : Int) := by
  induction rs with
  | nil => rfl
  | cons r rest ih =>
    have hr := hproper r (List.mem_cons_self _ _)
    have ih' := ih (fun r' h => hproper r' (List.mem_cons_of_mem _ h))
    by_cases h1 : r.start.val ≤ n
    · by_cases h2 : n ≤ r.endc.val
      · have hend : ¬(r.endc.val + 1 ≤ n) := by omega
        have hcov : r.start.val ≤ n ∧ n ≤ r.endc.val := ⟨h1, h2⟩
        simp [List.filter_cons, h1, h2, hend, hcov] at ih' ⊢
        omega
      · have hend : r.endc.val + 1 ≤ n := by omega
        have hcov : ¬(r.start.val ≤ n ∧ n ≤ r.endc.val) := fun hh => h2 hh.2
        simp [List.filter_cons, h1, h2, hend, hcov] at ih' ⊢
        omega
    · have hend : ¬(r.endc.val + 1 ≤ n) := by omega
      have hcov : ¬(r.start.val ≤ n ∧ n ≤ r.endc.val) := fun hh => h1 hh.1
      simp [List.filter_cons, h1, hend, hcov] at ih' ⊢
      omega

theorem countAt_perm {l1 l2 : List (Nat × Int)} (h : l1.Perm l2) (n : Nat) :
    countAt l1 n = countAt l2 n := by
  unfold countAt
  exact ((h.filter _).map _).sum_eq

/-- The disjoin event list is sorted by position. -/
theorem disjoinEvents_sorted (rs : List CharRange) :
    List.Sorted evLe (disjoinEvents rs) :=
  List.sorted_insertionSort evLe _

/-- The disjoin event list is a permutation of the raw start and end
events. -/
theorem disjoinEvents_perm (rs : List CharRange) :
    (disjoinEvents rs).Perm
      (rs.map (fun r => (r.start.val, (1 : Int))) ++
        rs.map (fun r => (r.endc.val + 1, (-1 : Int)))) :=
  List.perm_insertionSort _ _

/-- Membership characterisation of the whole disjoin sweep over proper
ranges: a position is covered by an emitted piece iff some input range
covers it. -/
theorem sweep_disjoin_mem (rs : List CharRange)
    (hproper : ∀ r ∈ rs, r.start.val ≤ r.endc.val) (n : Nat) :
    (∃ p ∈ sweepNat 0 0 (disjoinEvents rs), p.1 ≤ n ∧ n ≤ p.2) ↔
      ∃ r ∈ rs, r.start.val ≤ n ∧ n ≤ r.endc.val := by
  have hC : countAt (disjoinEvents rs) n =
      ((rs.filter (fun r => r.start.val ≤ n ∧ n ≤ r.endc.val)).length : Int) := by
    rw [countAt_perm (disjoinEvents_perm rs), countAt_append, countAt_starts,
      countAt_ends, ← cover_count rs hproper n]
    omega
  have hfilter : ((rs.filter (fun r => r.start.val ≤ n ∧ n ≤ r.endc.val)) ≠ []) ↔
      ∃ r ∈ rs, r.start.val ≤ n ∧ n ≤ r.endc.val := by
    constructor
    · intro hne
      obtain ⟨r, hr⟩ := List.exists_mem_of_ne_nil _ hne
      have hm := List.mem_filter.1 hr
      exact ⟨r, hm.1, by simpa using hm.2⟩
    · rintro ⟨r, hr, hcov⟩
      intro hnil
      have hm : r ∈ rs.filter (fun r => r.start.val ≤ n ∧ n ≤ r.endc.val) :=
        List.mem_filter.2 ⟨hr, decide_eq_true hcov⟩
      rw [hnil] at hm
      cases hm
  rw [sweepNat_mem_iff _ 0 0 (disjoinEvents_sorted rs)
    (fun _ _ => Nat.zero_le _) n]
  constructor
  · rintro ⟨_, _, hcnt⟩
    rw [hC] at hcnt
    have : (rs.filter (fun r => r.start.val ≤ n ∧ n ≤ r.endc.val)) ≠ [] := by
      intro hnil
      rw [hnil] at hcnt
      simp at hcnt
    exact hfilter.1 this
  · rintro ⟨r, hr, h1, h2⟩
    refine ⟨Nat.zero_le _, ?_, ?_⟩
    · refine ⟨(r.endc.val + 1, (-1 : Int)), ?_, by omega⟩
      rw [(disjoinEvents_perm rs).mem_iff, List.mem_append]
      right
      exact List.mem_map.2 ⟨r, hr, rfl⟩
    · rw [hC]
      have hne := hfilter.2 ⟨r, hr, h1, h2⟩
      have : 0 < (rs.filter (fun r => r.start.val ≤ n ∧ n ≤ r.endc.val)).length :=
        List.length_pos.2 hne
      omega

theorem forall₂_mem_right {α β : Type} {R : α → β → Prop} :
    ∀ {l : List α} {l' : List β}, List.Forall₂ R l l' → ∀ b ∈ l',
      ∃ a ∈ l, R a b := by
  intro l l' h
  induction h with
  | nil => intro b hb; cases hb
  | cons h₁ _ ih =>
    intro b hb
    rcases List.mem_cons.1 hb with rfl | hb'
    · exact ⟨_, List.mem_cons_self _ _, h₁⟩
    · obtain ⟨a, ha, hr⟩ := ih b hb'
      exact ⟨a, List.mem_cons_of_mem _ ha, hr⟩

theorem forall₂_mem_left {α β : Type} {R : α → β → Prop} :
    ∀ {l : List α} {l' : List β}, List.Forall₂ R l l' → ∀ a ∈ l,
      ∃ b ∈ l', R a b := by
  intro l l' h
  induction h with
  | nil => intro a ha; cases ha
  | cons h₁ _ ih =>
    intro a ha
    rcases List.mem_cons.1 ha with rfl | ha'
    · exact ⟨_, List.mem_cons_self _ _, h₁⟩
    · obtain ⟨b, hb, hr⟩ := ih a ha'
      exact ⟨b, List.mem_cons_of_mem _ hb, hr⟩

theorem pairwise_of_forall₂ {α β : Type} {R : α → β → Prop}
    {P : α → α → Prop} {Q : β → β → Prop}
    (hPQ : ∀ a b a' b', R a a' → R b b' → P a b → Q a' b') :
    ∀ {l : List α} {l' : List β}, List.Forall₂ R l l' →
      List.Pairwise P l → List.Pairwise Q l' := by
  intro l l' hf
  induction hf with
  | nil => intro _; exact List.Pairwise.nil
  | cons h₁ hrest ih =>
    intro hp
    rw [List.pairwise_cons] at hp
    refine List.Pairwise.cons ?_ (ih hp.2)
    intro b' hb'
    obtain ⟨b, hb, hr⟩ := forall₂_mem_right hrest b' hb'
    exact hPQ _ _ _ _ h₁ hr (hp.1 b hb)

/-- The piece conversion of `disjoin` relates each emitted `Nat` pair
to the produced `CharRange`. -/
theorem convRanges_forall₂ {pieces : List (Nat × Nat)} {rs' : List CharRange}
    (h : mapOpt convPiece pieces = some rs') :
    List.Forall₂ (fun (p : Nat × Nat) (r : CharRange) =>
      r.start.val = p.1 ∧ r.endc.val = p.2) pieces rs' := by
  induction pieces generalizing rs' with
  | nil =>
    simp only [mapOpt] at h
    cases h
    exact List.Forall₂.nil
  | cons p ps ih =>
    simp only [mapOpt, Option.bind_eq_bind] at h
    cases hc : convPiece p with
    | none => rw [hc] at h; cases h
    | some r =>
      rw [hc] at h
      cases hrest : mapOpt convPiece ps with
      | none => rw [hrest] at h; cases h
      | some rest' =>
        rw [hrest] at h
        simp only [Option.some_bind, Option.some_inj] at h
        cases h
        have hr : r.start.val = p.1 ∧ r.endc.val = p.2 := by
          simp only [convPiece, Option.bind_eq_bind] at hc
          cases hs : charOfNat? p.1 with
          | none => rw [hs] at hc; cases hc
          | some s =>
            rw [hs] at hc
            cases he : charOfNat? p.2 with
            | none => rw [he] at hc; cases hc
            | some e =>
              rw [he] at hc
              simp only [Option.some_bind, pure, Option.some_inj] at hc
              cases hc
              exact ⟨charOfNat?_val hs, charOfNat?_val he⟩
        exact List.Forall₂.cons hr (ih hrest)

/-- The class built from a single range contains exactly the range's
characters. -/
theorem ofRange_contains (r : CharRange) (c : UChar) :
    (CharClass.ofRange r).contains c = r.contains c := by
  simp [CharClass.ofRange, CharClass.addRange, CharClass.new, MSet.msInsert,
    MSet.msInsertPred, MSet.msInsertSucc, MSet.getPrev, MSet.getNext,
    MSet.insertEntry, CharClass.contains, MSet.values, CharRange.key]

/-- C7 amended: whenever `disjoin` returns without panicking on
classes whose ranges are all proper, the returned pieces are
single-range classes that are pairwise disjoint, whose union of code
points equals the union of the inputs, and such that every returned
piece that meets an input class is wholly contained in it (hence every
input class is exactly the union of the subset of pieces it meets). -/
theorem c7_disjoin_correct (cs : List CharClass) (out : List CharClass)
    (hproper : ∀ cc ∈ cs, ProperClass cc)
    (hsome : disjoin cs = some out) :
    (∀ p ∈ out, ∃ r, p = CharClass.ofRange r) ∧
    List.Pairwise
      (fun p q => ∀ c : UChar, ¬(p.contains c = true ∧ q.contains c = true)) out ∧
    (∀ c : UChar, (∃ p ∈ out, p.contains c = true) ↔
      ∃ cc ∈ cs, cc.contains c = true) ∧
    (∀ p ∈ out, ∀ cc ∈ cs,
      (∃ c : UChar, p.contains c = true ∧ cc.contains c = true) →
      ∀ c : UChar, p.contains c = true → cc.contains c = true) := by
  have hproper' : ∀ r ∈ cs.flatMap (fun cc => cc.ranges.values),
      r.start.val ≤ r.endc.val := by
    intro r hr
    obtain ⟨cc, hcc, hrcc⟩ := List.mem_flatMap.1 hr
    exact hproper cc hcc r hrcc
  unfold disjoin at hsome
  simp only [Option.bind_eq_bind] at hsome
  cases hconv : mapOpt convPiece
      (sweepNat 0 0 (disjoinEvents (cs.flatMap (fun cc => cc.ranges.values)))) with
  | none => rw [hconv] at hsome; cases hsome
  | some rs' =>
    rw [hconv] at hsome
    simp only [Option.some_bind, pure, Option.some_inj] at hsome
    subst hsome
    have hf2 := convRanges_forall₂ hconv
    -- membership in `out` in terms of covered positions
    have hout_mem : ∀ c : UChar, (∃ p ∈ rs'.map CharClass.ofRange,
        p.contains c = true) ↔
        ∃ P ∈ sweepNat 0 0
          (disjoinEvents (cs.flatMap (fun cc => cc.ranges.values))),
          P.1 ≤ c.val ∧ c.val ≤ P.2 := by
      intro c
      constructor
      · rintro ⟨p, hp, hpc⟩
        obtain ⟨r', hr', rfl⟩ := List.mem_map.1 hp
        rw [ofRange_contains] at hpc
        obtain ⟨P, hP, hPr⟩ := forall₂_mem_right hf2 r' hr'
        refine ⟨P, hP, ?_⟩
        simp only [CharRange.contains, Bool.and_eq_true, decide_eq_true_eq] at hpc
        omega
      · rintro ⟨P, hP, h1, h2⟩
        obtain ⟨r', hr', hPr⟩ := forall₂_mem_left hf2 P hP
        refine ⟨CharClass.ofRange r', List.mem_map.2 ⟨r', hr', rfl⟩, ?_⟩
        rw [ofRange_contains]
        simp only [CharRange.contains, Bool.and_eq_true, decide_eq_true_eq]
        omega
    have hcs_mem : ∀ c : UChar, (∃ cc ∈ cs, cc.contains c = true) ↔
        ∃ r ∈ cs.flatMap (fun cc => cc.ranges.values),
          r.start.val ≤ c.val ∧ c.val ≤ r.endc.val := by
      intro c
      constructor
      · rintro ⟨cc, hcc, hccc⟩
        obtain ⟨r, hr, hrc⟩ := List.any_eq_true.1 hccc
        refine ⟨r, List.mem_flatMap.2 ⟨cc, hcc, hr⟩, ?_⟩
        simp only [CharRange.contains, Bool.and_eq_true, decide_eq_true_eq] at hrc
        exact hrc
      · rintro ⟨r, hr, h1, h2⟩
        obtain ⟨cc, hcc, hrcc⟩ := List.mem_flatMap.1 hr
        refine ⟨cc, hcc, List.any_eq_true.2 ⟨r, hrcc, ?_⟩⟩
        simp only [CharRange.contains, Bool.and_eq_true, decide_eq_true_eq]
        exact ⟨h1, h2⟩
    refine ⟨?_, ?_, ?_, ?_⟩
    · intro p hp
      obtain ⟨r', _, rfl⟩ := List.mem_map.1 hp
      exact ⟨r', rfl⟩
    · -- pairwise disjointness, from the strict ordering of the pieces
      have hord := sweepNat_pairwise
        (disjoinEvents (cs.flatMap (fun cc => cc.ranges.values))) 0 0
        (disjoinEvents_sorted _) (fun _ _ => Nat.zero_le _)
      have hord' : List.Pairwise
          (fun (a b : CharRange) => a.endc.val < b.start.val) rs' :=
        pairwise_of_forall₂
          (fun P Q r s hPr hQs hPQ => by
            obtain ⟨h1, h2⟩ := hPr; obtain ⟨h3, h4⟩ := hQs; omega)
          hf2 hord
      rw [List.pairwise_map]
      refine hord'.imp ?_
      intro a b hab c hcc
      obtain ⟨hca, hcb⟩ := hcc
      rw [ofRange_contains] at hca hcb
      simp only [CharRange.contains, Bool.and_eq_true, decide_eq_true_eq] at hca hcb
      omega
    · intro c
      rw [hout_mem c, hcs_mem c]
      exact sweep_disjoin_mem _ hproper' c.val
    · -- every piece that meets an input class lies inside it
      intro p hp cc hcc hmeet c hpc
      obtain ⟨c0, hpc0, hccc0⟩ := hmeet
      obtain ⟨r', hr', rfl⟩ := List.mem_map.1 hp
      obtain ⟨P, hP, hPr⟩ := forall₂_mem_right hf2 r' hr'
      obtain ⟨r, hrcc, hrc0⟩ := List.any_eq_true.1 hccc0
      rw [ofRange_contains] at hpc0 hpc
      simp only [CharRange.contains, Bool.and_eq_true, decide_eq_true_eq]
        at hpc0 hpc hrc0
      have hrs : r ∈ cs.flatMap (fun cc => cc.ranges.values) :=
        List.mem_flatMap.2 ⟨cc, hcc, hrcc⟩
      have hstartEv : (r.start.val, (1 : Int)) ∈
          disjoinEvents (cs.flatMap (fun cc => cc.ranges.values)) := by
        rw [(disjoinEvents_perm _).mem_iff, List.mem_append]
        exact Or.inl (List.mem_map.2 ⟨r, hrs, rfl⟩)
      have hendEv : (r.endc.val + 1, (-1 : Int)) ∈
          disjoinEvents (cs.flatMap (fun cc => cc.ranges.values)) := by
        rw [(disjoinEvents_perm _).mem_iff, List.mem_append]
        exact Or.inr (List.mem_map.2 ⟨r, hrs, rfl⟩)
      have hniS := sweepNat_no_inner_event
        (disjoinEvents (cs.flatMap (fun cc => cc.ranges.values))) 0 0
        (disjoinEvents_sorted _) (fun _ _ => Nat.zero_le _) P hP
      have hstart := hniS _ hstartEv
      have hend := hniS _ hendEv
      -- the piece lies inside [r.start, r.endc]
      refine List.any_eq_true.2 ⟨r, hrcc, ?_⟩
      simp only [CharRange.contains, Bool.and_eq_true, decide_eq_true_eq]
      simp only at hstart hend
      omega

/-- Witness for `c7_disjoin_correct` on the overlapping classes
`{[a-c]}` and `{[b-i]}`, whose disjoin is `{[a]}, {[b-c]}, {[d-i]}`. -/
theorem c7_disjoin_correct_witness :
    (∀ cc ∈ [CharClass.ofRange ⟨uch 97, uch 99⟩,
             CharClass.ofRange ⟨uch 98, uch 105⟩], ProperClass cc) ∧
    (∀ c : UChar,
      (∃ p ∈ [CharClass.ofRange ⟨uch 97, uch 97⟩,
              CharClass.ofRange ⟨uch 98, uch 99⟩,
              CharClass.ofRange ⟨uch 100, uch 105⟩], p.contains c = true) ↔
        ∃ cc ∈ [CharClass.ofRange ⟨uch 97, uch 99⟩,
                CharClass.ofRange ⟨uch 98, uch 105⟩], cc.contains c = true) := by
  have hd : disjoin [CharClass.ofRange ⟨uch 97, uch 99⟩,
      CharClass.ofRange ⟨uch 98, uch 105⟩] =
      some [CharClass.ofRange ⟨uch 97, uch 97⟩,
            CharClass.ofRange ⟨uch 98, uch 99⟩,
            CharClass.ofRange ⟨uch 100, uch 105⟩] := by decide
  have := c7_disjoin_correct _ _ (by decide) hd
  exact ⟨by decide, this.2.2.1⟩

/-! ### Semantics of complement (C8) -/

theorem uch_val {n : Nat} (h : isScalar n) : (uch n).val = n := by
  unfold uch
  rw [dif_pos h]

/-- The low-side pieces of `CharRange::complement` cover exactly the
scalar values below `start`, and are proper ranges. -/
theorem lowComp_spec {r : CharRange} {lp : List CharRange}
    (h : r.lowComp = some lp) :
    (∀ p ∈ lp, p.start.val ≤ p.endc.val) ∧
    ∀ c : UChar, (lp.any (·.contains c) = true) ↔ c.val < r.start.val := by
  have hsv := r.start.valid
  unfold isScalar at hsv
  have e1 : (uch USV_END_1).val = 0xd7ff := rfl
  have e2 : (uch USV_START_2).val = 0xe000 := rfl
  have e0 : (uch 0).val = 0 := rfl
  unfold CharRange.lowComp at h
  by_cases hb1 : r.start.val > USV_START_2
  · rw [if_pos hb1] at h
    cases hd : CharRange.shiftDown r.start with
    | none => rw [hd] at h; cases h
    | some d =>
      rw [hd] at h
      have hdv : d.val = r.start.val - 1 := charOfNat?_val hd
      simp only [Option.some_bind, Option.some_inj] at h
      subst h
      unfold USV_START_2 at hb1
      constructor
      · intro p hp
        rcases List.mem_cons.1 hp with rfl | hp'
        · simp only [CharRange.new, e2, hdv]; omega
        · rcases List.mem_cons.1 hp' with rfl | hp''
          · simp only [CharRange.new, e0, e1]; omega
          · cases hp''
      · intro c
        have hcv := c.valid
        unfold isScalar at hcv
        simp only [List.any_cons, List.any_nil, Bool.or_eq_true,
          Bool.or_false, CharRange.contains, CharRange.new, Bool.and_eq_true,
          decide_eq_true_eq, e0, e1, e2, hdv]
        omega
  · rw [if_neg hb1] at h
    unfold USV_START_2 at hb1
    by_cases hb2 : r.start.val > 0
    · rw [if_pos hb2] at h
      cases hd : CharRange.shiftDown r.start with
      | none => rw [hd] at h; cases h
      | some d =>
        rw [hd] at h
        have hdv : d.val = r.start.val - 1 := charOfNat?_val hd
        simp only [Option.some_bind, Option.some_inj] at h
        subst h
        constructor
        · intro p hp
          rcases List.mem_cons.1 hp with rfl | hp'
          · simp only [CharRange.new, e0, hdv]; omega
          · cases hp'
        · intro c
          have hcv := c.valid
          unfold isScalar at hcv
          simp only [List.any_cons, List.any_nil, Bool.or_eq_true,
            Bool.or_false, CharRange.contains, CharRange.new, Bool.and_eq_true,
            decide_eq_true_eq, e0, hdv]
          omega
    · rw [if_neg hb2] at h
      cases h
      refine ⟨?_, ?_⟩
      · intro p hpm
        cases hpm
      · intro c
        simp only [List.any_nil, Bool.false_eq_true, false_iff]
        omega

/-- The high-side pieces of `CharRange::complement` cover exactly the
scalar values above `end`, and are proper ranges. -/
theorem highComp_spec {r : CharRange} {hp : List CharRange}
    (h : r.highComp = some hp) :
    (∀ p ∈ hp, p.start.val ≤ p.endc.val) ∧
    ∀ c : UChar, (hp.any (·.contains c) = true) ↔ r.endc.val < c.val := by
  have hev := r.endc.valid
  unfold isScalar at hev
  have e1 : (uch USV_END_1).val = 0xd7ff := rfl
  have e2 : (uch USV_START_2).val = 0xe000 := rfl
  have e3 : (uch USV_END_2).val = 0x10ffff := rfl
  unfold CharRange.highComp at h
  by_cases hb1 : r.endc.val < USV_END_1
  · rw [if_pos hb1] at h
    cases hu : CharRange.shiftUp r.endc with
    | none => rw [hu] at h; cases h
    | some u =>
      rw [hu] at h
      have huv : u.val = r.endc.val + 1 := charOfNat?_val hu
      simp only [Option.some_bind, Option.some_inj] at h
      subst h
      unfold USV_END_1 at hb1
      constructor
      · intro p hpm
        rcases List.mem_cons.1 hpm with rfl | hp'
        · simp only [CharRange.new, e1, huv]; omega
        · rcases List.mem_cons.1 hp' with rfl | hp''
          · simp only [CharRange.new, e2, e3]; omega
          · cases hp''
      · intro c
        have hcv := c.valid
        unfold isScalar at hcv
        simp only [List.any_cons, List.any_nil, Bool.or_eq_true,
          Bool.or_false, CharRange.contains, CharRange.new, Bool.and_eq_true,
          decide_eq_true_eq, e1, e2, e3, huv]
        omega
  · rw [if_neg hb1] at h
    unfold USV_END_1 at hb1
    by_cases hb2 : r.endc.val < USV_END_2
    · rw [if_pos hb2] at h
      cases hu : CharRange.shiftUp r.endc with
      | none => rw [hu] at h; cases h
      | some u =>
        rw [hu] at h
        have huv : u.val = r.endc.val + 1 := charOfNat?_val hu
        simp only [Option.some_bind, Option.some_inj] at h
        subst h
        unfold USV_END_2 at hb2
        constructor
        · intro p hpm
          rcases List.mem_cons.1 hpm with rfl | hp'
          · simp only [CharRange.new, e3, huv]; omega
          · cases hp'
        · intro c
          have hcv := c.valid
          unfold isScalar at hcv
          simp only [List.any_cons, List.any_nil, Bool.or_eq_true,
            Bool.or_false, CharRange.contains, CharRange.new, Bool.and_eq_true,
            decide_eq_true_eq, e3, huv]
          omega
    · rw [if_neg hb2] at h
      cases h
      unfold USV_END_2 at hb2
      refine ⟨?_, ?_⟩
      · intro p hpm
        cases hpm
      · intro c
        have hcv := c.valid
        unfold isScalar at hcv
        simp only [List.any_nil, Bool.false_eq_true, false_iff]
        omega

/-- When `CharRange::complement` returns normally its pieces are proper
and cover exactly the scalar values outside the range. -/
theorem range_complement_spec {r : CharRange} {pieces : List CharRange}
    (h : r.complement = some pieces) :
    (∀ p ∈ pieces, p.start.val ≤ p.endc.val) ∧
    ∀ c : UChar, (pieces.any (·.contains c) = true) ↔ ¬(r.contains c = true) := by
  unfold CharRange.complement at h
  simp only [Option.bind_eq_bind] at h
  cases hl : r.lowComp with
  | none => rw [hl] at h; cases h
  | some lp =>
    rw [hl] at h
    cases hh : r.highComp with
    | none => rw [hh] at h; cases h
    | some hp =>
      rw [hh] at h
      simp only [Option.some_bind, pure, Option.some_inj] at h
      subst h
      obtain ⟨hlProp, hlMem⟩ := lowComp_spec hl
      obtain ⟨hhProp, hhMem⟩ := highComp_spec hh
      constructor
      · intro p hpm
        rcases List.mem_append.1 hpm with hpl | hph
        · exact hlProp p hpl
        · exact hhProp p hph
      · intro c
        rw [List.any_append]
        simp only [Bool.or_eq_true]
        rw [hlMem c, hhMem c]
        simp only [CharRange.contains, Bool.and_eq_true, decide_eq_true_eq]
        omega

theorem UChar.val_inj {a b : UChar} (h : a.val = b.val) : a = b := by
  cases a
  cases b
  simp only at h
  subst h
  rfl

/-- The points of a merge-set: some stored range contains `c`. -/
theorem msAny_iff (m : MSet) (c : UChar) :
    (m.values.any (·.contains c) = true) ↔ ∃ e ∈ m, e.2.contains c = true := by
  rw [List.any_eq_true]
  constructor
  · rintro ⟨r, hr, hrc⟩
    obtain ⟨e, he, rfl⟩ := List.mem_map.1 hr
    exact ⟨e, he, hrc⟩
  · rintro ⟨e, he, hec⟩
    exact ⟨e.2, List.mem_map.2 ⟨e, he, rfl⟩, hec⟩

theorem getPrev_mem {m : MSet} {k : UChar} {e : UChar × CharRange}
    (h : m.getPrev k = some e) : e ∈ m := by
  induction m with
  | nil => cases h
  | cons hd rest ih =>
    rw [MSet.getPrev] at h
    by_cases hc : hd.1.val ≤ k.val
    · rw [if_pos hc] at h
      cases hrec : MSet.getPrev rest k with
      | some x =>
        rw [hrec] at h
        cases h
        exact List.mem_cons_of_mem _ (ih hrec)
      | none =>
        rw [hrec] at h
        cases h
        exact List.mem_cons_self _ _
    · rw [if_neg hc] at h
      cases h

theorem getPrev_le {m : MSet} {k : UChar} {e : UChar × CharRange}
    (h : m.getPrev k = some e) : e.1.val ≤ k.val := by
  induction m with
  | nil => cases h
  | cons hd rest ih =>
    rw [MSet.getPrev] at h
    by_cases hc : hd.1.val ≤ k.val
    · rw [if_pos hc] at h
      cases hrec : MSet.getPrev rest k with
      | some x => rw [hrec] at h; cases h; exact ih hrec
      | none => rw [hrec] at h; cases h; exact hc
    · rw [if_neg hc] at h
      cases h

theorem getPrev_none {m : MSet} {k : UChar}
    (hs : List.Pairwise (fun a b => a.1.val < b.1.val) m)
    (h : m.getPrev k = none) : ∀ e ∈ m, k.val < e.1.val := by
  induction m with
  | nil => intro e he; cases he
  | cons hd rest ih =>
    rw [MSet.getPrev] at h
    by_cases hc : hd.1.val ≤ k.val
    · rw [if_pos hc] at h
      cases hrec : MSet.getPrev rest k with
      | some x => rw [hrec] at h; cases h
      | none => rw [hrec] at h; cases h
    · rw [if_neg hc] at h
      rw [List.pairwise_cons] at hs
      intro e he
      rcases List.mem_cons.1 he with rfl | he'
      · omega
      · have := hs.1 e he'
        omega

theorem getPrev_max {m : MSet} {k : UChar} {e : UChar × CharRange}
    (hs : List.Pairwise (fun a b => a.1.val < b.1.val) m)
    (h : m.getPrev k = some e) :
    ∀ e' ∈ m, e'.1.val ≤ k.val → e'.1.val ≤ e.1.val := by
  induction m with
  | nil => cases h
  | cons hd rest ih =>
    rw [List.pairwise_cons] at hs
    rw [MSet.getPrev] at h
    by_cases hc : hd.1.val ≤ k.val
    · rw [if_pos hc] at h
      cases hrec : MSet.getPrev rest k with
      | some x =>
        rw [hrec] at h
        cases h
        intro e' he' hk
        rcases List.mem_cons.1 he' with rfl | he''
        · have := hs.1 _ (getPrev_mem hrec)
          omega
        · exact ih hs.2 hrec e' he'' hk
      | none =>
        rw [hrec] at h
        cases h
        intro e' he' hk
        rcases List.mem_cons.1 he' with rfl | he''
        · exact Nat.le_refl _
        · have := getPrev_none hs.2 hrec e' he''
          omega
    · rw [if_neg hc] at h
      cases h

theorem getNext_mem {m : MSet} {k : UChar} {e : UChar × CharRange}
    (h : m.getNext k = some e) : e ∈ m := by
  induction m with
  | nil => cases h
  | cons hd rest ih =>
    rw [MSet.getNext] at h
    by_cases hc : k.val ≤ hd.1.val
    · rw [if_pos hc] at h
      cases h
      exact List.mem_cons_self _ _
    · rw [if_neg hc] at h
      exact List.mem_cons_of_mem _ (ih h)

theorem getNext_ge {m : MSet} {k : UChar} {e : UChar × CharRange}
    (h : m.getNext k = some e) : k.val ≤ e.1.val := by
  induction m with
  | nil => cases h
  | cons hd rest ih =>
    rw [MSet.getNext] at h
    by_cases hc : k.val ≤ hd.1.val
    · rw [if_pos hc] at h
      cases h
      exact hc
    · rw [if_neg hc] at h
      exact ih h

theorem removeKey_sublist (m : MSet) (k : UChar) :
    (m.removeKey k).Sublist m := by
  induction m with
  | nil => exact List.Sublist.refl _
  | cons hd rest ih =>
    rw [MSet.removeKey]
    by_cases hc : hd.1 = k
    · rw [if_pos hc]
      exact List.sublist_cons_self _ _
    · rw [if_neg hc]
      exact ih.cons₂ _

theorem mem_removeKey {m : MSet} {k : UChar}
    (hs : List.Pairwise (fun a b => a.1.val < b.1.val) m)
    (e : UChar × CharRange) :
    e ∈ m.removeKey k ↔ e ∈ m ∧ e.1 ≠ k := by
  induction m with
  | nil => simp [MSet.removeKey]
  | cons hd rest ih =>
    rw [List.pairwise_cons] at hs
    rw [MSet.removeKey]
    by_cases hc : hd.1 = k
    · rw [if_pos hc]
      constructor
      · intro he
        refine ⟨List.mem_cons_of_mem _ he, ?_⟩
        have := hs.1 e he
        intro hek
        rw [hek, ← hc] at this
        omega
      · rintro ⟨he, hek⟩
        rcases List.mem_cons.1 he with rfl | he'
        · exact absurd hc hek
        · exact he'
    · rw [if_neg hc]
      constructor
      · intro he
        rcases List.mem_cons.1 he with rfl | he'
        · exact ⟨List.mem_cons_self _ _, hc⟩
        · obtain ⟨h1, h2⟩ := (ih hs.2).1 he'
          exact ⟨List.mem_cons_of_mem _ h1, h2⟩
      · rintro ⟨he, hek⟩
        rcases List.mem_cons.1 he with rfl | he'
        · exact List.mem_cons_self _ _
        · exact List.mem_cons_of_mem _ ((ih hs.2).2 ⟨he', hek⟩)

theorem mem_insertEntry_fwd {m : MSet} {k : UChar} {v : CharRange}
    (e : UChar × CharRange) (h : e ∈ m.insertEntry k v) :
    e = (k, v) ∨ e ∈ m := by
  induction m with
  | nil =>
    rw [MSet.insertEntry] at h
    rcases List.mem_cons.1 h with rfl | h'
    · exact Or.inl rfl
    · cases h'
  | cons hd rest ih =>
    rw [MSet.insertEntry] at h
    by_cases hc1 : k.val < hd.1.val
    · rw [if_pos hc1] at h
      rcases List.mem_cons.1 h with rfl | h'
      · exact Or.inl rfl
      · exact Or.inr h'
    · rw [if_neg hc1] at h
      by_cases hc2 : k = hd.1
      · rw [if_pos hc2] at h
        rcases List.mem_cons.1 h with rfl | h'
        · exact Or.inl rfl
        · exact Or.inr (List.mem_cons_of_mem _ h')
      · rw [if_neg hc2] at h
        rcases List.mem_cons.1 h with rfl | h'
        · exact Or.inr (List.mem_cons_self _ _)
        · rcases ih h' with h'' | h''
          · exact Or.inl h''
          · exact Or.inr (List.mem_cons_of_mem _ h'')

theorem mem_insertEntry {m : MSet} {k : UChar} {v : CharRange}
    (hno : ∀ e ∈ m, e.1 ≠ k) (e : UChar × CharRange) :
    e ∈ m.insertEntry k v ↔ e = (k, v) ∨ e ∈ m := by
  constructor
  · exact mem_insertEntry_fwd e
  · intro he
    induction m with
    | nil =>
      rw [MSet.insertEntry]
      rcases he with rfl | h'
      · exact List.mem_cons_self _ _
      · cases h'
    | cons hd rest ih =>
      rw [MSet.insertEntry]
      by_cases hc1 : k.val < hd.1.val
      · rw [if_pos hc1]
        rcases he with rfl | h'
        · exact List.mem_cons_self _ _
        · exact List.mem_cons_of_mem _ h'
      · rw [if_neg hc1]
        have hne : ¬(k = hd.1) := fun hk =>
          hno hd (List.mem_cons_self _ _) hk.symm
        rw [if_neg hne]
        rcases he with rfl | h'
        · exact List.mem_cons_of_mem _
            (ih (fun e' he' => hno e' (List.mem_cons_of_mem _ he')) (Or.inl rfl))
        · rcases List.mem_cons.1 h' with rfl | h''
          · exact List.mem_cons_self _ _
          · exact List.mem_cons_of_mem _
              (ih (fun e' he' => hno e' (List.mem_cons_of_mem _ he')) (Or.inr h''))

theorem insertEntry_pairwise {m : MSet} {k : UChar} {v : CharRange}
    (hs : List.Pairwise (fun a b => a.1.val < b.1.val) m) :
    List.Pairwise (fun a b => a.1.val < b.1.val) (m.insertEntry k v) := by
  induction m with
  | nil => simp [MSet.insertEntry]
  | cons hd rest ih =>
    rw [List.pairwise_cons] at hs
    rw [MSet.insertEntry]
    by_cases hc1 : k.val < hd.1.val
    · rw [if_pos hc1]
      refine List.Pairwise.cons ?_ (List.Pairwise.cons hs.1 hs.2)
      intro e he
      rcases List.mem_cons.1 he with rfl | he'
      · exact hc1
      · have := hs.1 e he'
        show k.val < e.1.val
        omega
    · rw [if_neg hc1]
      by_cases hc2 : k = hd.1
      · rw [if_pos hc2]
        refine List.Pairwise.cons ?_ hs.2
        intro e he
        have := hs.1 e he
        have hk : k.val = hd.1.val := by rw [hc2]
        show k.val < e.1.val
        omega
      · rw [if_neg hc2]
        refine List.Pairwise.cons ?_ (ih hs.2)
        intro e he
        rcases mem_insertEntry_fwd e he with rfl | he'
        · simp only
          have : hd.1.val ≠ k.val := fun hh => hc2 (UChar.val_inj hh).symm
          omega
        · exact hs.1 e he'

/-- The hull `Value::union` of two proper intersecting ranges contains
exactly the points of the two ranges. -/
theorem vunion_contains {a b : CharRange}
    (ha : a.start.val ≤ a.endc.val) (hb : b.start.val ≤ b.endc.val)
    (hint : a.intersectsWith b = true) (c : UChar) :
    ((a.vunion b).contains c = true) ↔
      (a.contains c = true ∨ b.contains c = true) := by
  unfold CharRange.intersectsWith CharRange.intersection at hint
  by_cases hov : b.start.val > a.endc.val || a.start.val > b.endc.val
  · rw [if_pos hov] at hint
    cases hint
  · simp only [Bool.or_eq_true, decide_eq_true_eq, not_or, not_lt] at hov
    unfold CharRange.vunion CharRange.new
    simp only [CharRange.contains, Bool.and_eq_true, decide_eq_true_eq]
    by_cases h1 : a.start.val ≤ b.start.val <;>
      by_cases h2 : a.endc.val ≥ b.endc.val <;>
      simp only [h1, h2, if_pos, if_neg, if_true, if_false] <;>
      omega

theorem intersectsWith_iff (a b : CharRange) :
    a.intersectsWith b = true ↔
      b.start.val ≤ a.endc.val ∧ a.start.val ≤ b.endc.val := by
  unfold CharRange.intersectsWith CharRange.intersection
  by_cases hov : b.start.val > a.endc.val || a.start.val > b.endc.val
  · rw [if_pos hov]
    simp only [Bool.or_eq_true, decide_eq_true_eq] at hov
    simp only [Option.isSome_none, Bool.false_eq_true, false_iff]
    omega
  · rw [if_neg hov]
    simp only [Bool.or_eq_true, decide_eq_true_eq, not_or, not_lt] at hov
    simp only [Option.isSome_some, true_iff]
    omega

theorem vunion_proper {a b : CharRange}
    (ha : a.start.val ≤ a.endc.val) (hb : b.start.val ≤ b.endc.val) :
    (a.vunion b).start.val ≤ (a.vunion b).endc.val := by
  unfold CharRange.vunion CharRange.new
  by_cases h1 : a.start.val ≤ b.start.val <;>
    by_cases h2 : a.endc.val ≥ b.endc.val <;>
    simp only [h1, h2, if_true, if_false] <;> omega

theorem mem_key_eq {m : MSet}
    (hs : List.Pairwise (fun a b => a.1.val < b.1.val) m)
    {e e' : UChar × CharRange} (he : e ∈ m) (he' : e' ∈ m)
    (hk : e.1 = e'.1) : e = e' := by
  induction m with
  | nil => cases he
  | cons hd rest ih =>
    rw [List.pairwise_cons] at hs
    rcases List.mem_cons.1 he with rfl | he2 <;>
      rcases List.mem_cons.1 he' with rfl | he2'
    · rfl
    · have := hs.1 e' he2'
      rw [hk] at this
      omega
    · have := hs.1 e he2
      rw [hk] at this
      omega
    · exact ih hs.2 he2 he2'

/-- Specification of the predecessor stage of `MergeSet::insert` on a
well-formed set and a proper item: well-formedness data is preserved,
no remaining entry carries the adopted priority, and the points of
(set, item) are preserved. -/
theorem msInsertPred_spec {m m1 : MSet} {v item1 : CharRange}
    {priority : UChar}
    (hWF : MSetWF m) (hv : v.start.val ≤ v.endc.val)
    (h : MSet.msInsertPred m v v.key = (m1, item1, priority)) :
    MSetWF m1 ∧ item1.start.val ≤ item1.endc.val ∧ priority = item1.start ∧
    (∀ e ∈ m1, e.1 ≠ priority) ∧
    (∀ c : UChar,
      ((∃ e ∈ m1, e.2.contains c = true) ∨ item1.contains c = true) ↔
      ((∃ e ∈ m, e.2.contains c = true) ∨ v.contains c = true)) := by
  obtain ⟨hpw, hvals⟩ := hWF
  have hkey : v.key = v.start := rfl
  unfold MSet.msInsertPred at h
  cases hp : m.getPrev v.key with
  | none =>
    rw [hp] at h
    cases h
    refine ⟨⟨hpw, hvals⟩, hv, hkey.symm ▸ rfl, ?_, fun c => Iff.rfl⟩
    intro e he hek
    have := getPrev_none hpw hp e he
    rw [hek, hkey] at this
    omega
  | some pr =>
    obtain ⟨pk, pv⟩ := pr
    rw [hp] at h
    dsimp only at h
    have hpkmem : (pk, pv) ∈ m := getPrev_mem hp
    have hpkle : pk.val ≤ v.start.val := by
      have h0 := getPrev_le hp
      simpa [CharRange.key] using h0
    have hpkv := hvals _ hpkmem
    simp only at hpkv
    by_cases hint : v.intersectsWith pv = true
    · rw [if_pos hint] at h
      cases h
      have hpvp : pv.start.val ≤ pv.endc.val := hpkv.1 ▸ hpkv.2
      have hstart : priority = (v.vunion pv).start := by
        show priority = (if v.start.val ≤ pv.start.val then v.start else pv.start)
        by_cases hc : v.start.val ≤ pv.start.val
        · rw [if_pos hc]
          have h2 : priority.val = pv.start.val := by rw [hpkv.1]
          exact UChar.val_inj (by omega)
        · rw [if_neg hc]
          exact hpkv.1
      refine ⟨⟨List.Pairwise.sublist (removeKey_sublist m priority) hpw,
        fun e he => hvals e ((removeKey_sublist m priority).mem he)⟩,
        vunion_proper hv hpvp, hstart, ?_, ?_⟩
      · intro e he
        exact ((mem_removeKey hpw e).1 he).2
      · intro c
        rw [vunion_contains hv hpvp hint c]
        constructor
        · rintro (⟨e, he, hec⟩ | hvc | hpvc)
          · exact Or.inl ⟨e, ((mem_removeKey hpw e).1 he).1, hec⟩
          · exact Or.inr hvc
          · exact Or.inl ⟨(priority, pv), hpkmem, hpvc⟩
        · rintro (⟨e, he, hec⟩ | hvc)
          · by_cases hek : e.1 = priority
            · have : e = (priority, pv) := mem_key_eq hpw he hpkmem hek
              rw [this] at hec
              exact Or.inr (Or.inr hec)
            · exact Or.inl ⟨e, (mem_removeKey hpw e).2 ⟨he, hek⟩, hec⟩
          · exact Or.inr (Or.inl hvc)
    · rw [if_neg hint] at h
      cases h
      refine ⟨⟨hpw, hvals⟩, hv, hkey.symm ▸ rfl, ?_, fun c => Iff.rfl⟩
      intro e he hek
      have hmax := getPrev_max hpw hp e he (by rw [hek, hkey])
      rw [hek, hkey] at hmax
      dsimp only at hmax
      have hpkeq : pk.val = v.start.val := by omega
      have hpveq : pv.start.val = v.start.val := by
        rw [← hpkv.1]
        exact hpkeq
      have hpvp : pv.start.val ≤ pv.endc.val := hpkv.1 ▸ hpkv.2
      exact hint ((intersectsWith_iff v pv).2 (by omega))

/-- Specification of the successor stage of `MergeSet::insert`. -/
theorem msInsertSucc_spec {m1 m2 : MSet} {item1 item2 : CharRange}
    {priority : UChar}
    (hWF1 : MSetWF m1) (hi : item1.start.val ≤ item1.endc.val)
    (hpri : priority = item1.start) (hno : ∀ e ∈ m1, e.1 ≠ priority)
    (h : MSet.msInsertSucc m1 item1 priority = (m2, item2)) :
    MSetWF m2 ∧ item2.start.val ≤ item2.endc.val ∧ priority = item2.start ∧
    (∀ e ∈ m2, e.1 ≠ priority) ∧
    (∀ c : UChar,
      ((∃ e ∈ m2, e.2.contains c = true) ∨ item2.contains c = true) ↔
      ((∃ e ∈ m1, e.2.contains c = true) ∨ item1.contains c = true)) := by
  obtain ⟨hpw, hvals⟩ := hWF1
  unfold MSet.msInsertSucc at h
  cases hs : m1.getNext priority with
  | none =>
    rw [hs] at h
    cases h
    exact ⟨⟨hpw, hvals⟩, hi, hpri, hno, fun c => Iff.rfl⟩
  | some sr =>
    obtain ⟨sk, sv⟩ := sr
    rw [hs] at h
    dsimp only at h
    have hskmem : (sk, sv) ∈ m1 := getNext_mem hs
    have hskge : priority.val ≤ sk.val := by
      have h0 := getNext_ge hs
      simpa using h0
    have hskv := hvals _ hskmem
    simp only at hskv
    by_cases hint : item1.intersectsWith sv = true
    · rw [if_pos hint] at h
      cases h
      have hsvp : sv.start.val ≤ sv.endc.val := hskv.1 ▸ hskv.2
      have hstart : priority = (item1.vunion sv).start := by
        unfold CharRange.vunion CharRange.new
        have hc : item1.start.val ≤ sv.start.val := by
          rw [← hpri, ← hskv.1]
          exact hskge
        rw [if_pos hc]
        exact hpri
      refine ⟨⟨List.Pairwise.sublist (removeKey_sublist m1 sk) hpw,
        fun e he => hvals e ((removeKey_sublist m1 sk).mem he)⟩,
        vunion_proper hi hsvp, hstart, ?_, ?_⟩
      · intro e he
        exact hno e ((removeKey_sublist m1 sk).mem he)
      · intro c
        rw [vunion_contains hi hsvp hint c]
        constructor
        · rintro (⟨e, he, hec⟩ | hic | hsvc)
          · exact Or.inl ⟨e, ((mem_removeKey hpw e).1 he).1, hec⟩
          · exact Or.inr hic
          · exact Or.inl ⟨(sk, sv), hskmem, hsvc⟩
        · rintro (⟨e, he, hec⟩ | hic)
          · by_cases hek : e.1 = sk
            · have : e = (sk, sv) := mem_key_eq hpw he hskmem hek
              rw [this] at hec
              exact Or.inr (Or.inr hec)
            · exact Or.inl ⟨e, (mem_removeKey hpw e).2 ⟨he, hek⟩, hec⟩
          · exact Or.inr (Or.inl hic)
    · rw [if_neg hint] at h
      cases h
      exact ⟨⟨hpw, hvals⟩, hi, hpri, hno, fun c => Iff.rfl⟩

/-- `MergeSet::insert` of a proper range into a well-formed set
preserves well-formedness and adds exactly the range's points. -/
theorem msInsert_spec {m : MSet} {v : CharRange}
    (hWF : MSetWF m) (hv : v.start.val ≤ v.endc.val) :
    MSetWF (m.msInsert v) ∧
    ∀ c : UChar, ((∃ e ∈ m.msInsert v, e.2.contains c = true) ↔
      ((∃ e ∈ m, e.2.contains c = true) ∨ v.contains c = true)) := by
  rcases hps : MSet.msInsertPred m v v.key with ⟨m1, item1, priority⟩
  rcases hsc : MSet.msInsertSucc m1 item1 priority with ⟨m2, item2⟩
  have hins : m.msInsert v = m2.insertEntry priority item2 := by
    unfold MSet.msInsert
    rw [hps]
    dsimp only
    rw [hsc]
  obtain ⟨hWF1, hi1, hpri1, hno1, hpts1⟩ := msInsertPred_spec hWF hv hps
  obtain ⟨hWF2, hi2, hpri2, hno2, hpts2⟩ :=
    msInsertSucc_spec hWF1 hi1 hpri1 hno1 hsc
  rw [hins]
  constructor
  · refine ⟨insertEntry_pairwise hWF2.1, ?_⟩
    intro e he
    rcases mem_insertEntry_fwd e he with rfl | he'
    · exact ⟨hpri2, hpri2 ▸ hi2⟩
    · exact hWF2.2 e he'
  · intro c
    rw [← hpts1 c, ← hpts2 c]
    constructor
    · rintro ⟨e, he, hec⟩
      rcases (mem_insertEntry hno2 e).1 he with rfl | he'
      · exact Or.inr hec
      · exact Or.inl ⟨e, he', hec⟩
    · rintro (⟨e, he, hec⟩ | hic)
      · exact ⟨e, (mem_insertEntry hno2 e).2 (Or.inr he), hec⟩
      · exact ⟨(priority, item2), (mem_insertEntry hno2 _).2 (Or.inl rfl), hic⟩

/-- C8 counterexample: the claim states `cc.complement().complement()`
returns normally and equals `cc`, and that the empty class complements
to the universe.  For the singleton class `{a}` the second complement
panics (its first complement contains a range ending at `U+D7FF`, whose
complement computes `0xD7FF + 1`, a surrogate, and `unwrap`s the failed
conversion); and the empty class complements to the empty class, not
the universe. -/
theorem c8_counterexample_double_complement_panics :
    ((CharClass.ofChar (uch 97)).complement).bind CharClass.complement = none ∧
    CharClass.new.complement = some CharClass.new := by
  refine ⟨by decide, by decide⟩

/-- `CharClass::contains` as existence of a covering stored entry. -/
theorem contains_iff (cc : CharClass) (c : UChar) :
    cc.contains c = true ↔ ∃ e ∈ cc.ranges, e.2.contains c = true :=
  msAny_iff cc.ranges c

/-- `CharClass::contains` as existence of a covering stored range. -/
theorem contains_values_iff (cc : CharClass) (c : UChar) :
    cc.contains c = true ↔ ∃ r ∈ cc.ranges.values, r.contains c = true := by
  unfold CharClass.contains
  exact List.any_eq_true

/-- `CharClass::add_range` preserves well-formedness and adds exactly
the points of the new proper range. -/
theorem addRange_spec {cc : CharClass} {r : CharRange}
    (hwf : CCWF cc) (hr : r.start.val ≤ r.endc.val) :
    CCWF (cc.addRange r) ∧
    ∀ c : UChar, ((cc.addRange r).contains c = true ↔
      (cc.contains c = true ∨ r.contains c = true)) := by
  obtain ⟨h1, h2⟩ := msInsert_spec hwf hr
  refine ⟨h1, fun c => ?_⟩
  constructor
  · intro h
    rcases (h2 c).1 ((contains_iff (cc.addRange r) c).1 h) with h' | h'
    · exact Or.inl ((contains_iff cc c).2 h')
    · exact Or.inr h'
  · rintro (h | h)
    · exact (contains_iff (cc.addRange r) c).2
        ((h2 c).2 (Or.inl ((contains_iff cc c).1 h)))
    · exact (contains_iff (cc.addRange r) c).2 ((h2 c).2 (Or.inr h))

/-- Folding `add_range` over a list of proper ranges: the result is
well-formed and covers the accumulator plus the listed ranges. -/
theorem foldl_addRange_spec (rs : List CharRange) :
    ∀ (cc : CharClass), CCWF cc → (∀ r ∈ rs, r.start.val ≤ r.endc.val) →
    CCWF (rs.foldl CharClass.addRange cc) ∧
    ∀ c : UChar, ((rs.foldl CharClass.addRange cc).contains c = true ↔
      (cc.contains c = true ∨ ∃ r ∈ rs, r.contains c = true)) := by
  induction rs with
  | nil =>
    intro cc hwf _
    refine ⟨hwf, fun c => ?_⟩
    simp
  | cons hd tl ih =>
    intro cc hwf hrs
    have hhd : hd.start.val ≤ hd.endc.val := hrs hd (List.mem_cons_self hd tl)
    obtain ⟨h1, h2⟩ := addRange_spec hwf hhd
    obtain ⟨h3, h4⟩ :=
      ih (cc.addRange hd) h1 (fun r hrm => hrs r (List.mem_cons_of_mem hd hrm))
    refine ⟨h3, fun c => ?_⟩
    simp only [List.foldl_cons]
    rw [h4 c, h2 c]
    constructor
    · rintro ((h | h) | ⟨r, hrm, hc⟩)
      · exact Or.inl h
      · exact Or.inr ⟨hd, List.mem_cons_self hd tl, h⟩
      · exact Or.inr ⟨r, List.mem_cons_of_mem hd hrm, hc⟩
    · rintro (h | ⟨r, hrm, hc⟩)
      · exact Or.inl (Or.inl h)
      · rcases List.mem_cons.1 hrm with rfl | hrm'
        · exact Or.inl (Or.inr hc)
        · exact Or.inr ⟨r, hrm', hc⟩

/-- Building a class from a list of proper ranges yields a well-formed
class containing exactly the ranges' points. -/
theorem ofRanges_spec {rs : List CharRange}
    (hrs : ∀ r ∈ rs, r.start.val ≤ r.endc.val) :
    CCWF (CharClass.ofRanges rs) ∧
    ∀ c : UChar, ((CharClass.ofRanges rs).contains c = true ↔
      ∃ r ∈ rs, r.contains c = true) := by
  have hnew : CCWF CharClass.new := ⟨List.Pairwise.nil, by intro e he; cases he⟩
  obtain ⟨h1, h2⟩ := foldl_addRange_spec rs CharClass.new hnew hrs
  refine ⟨h1, fun c => ?_⟩
  unfold CharClass.ofRanges
  rw [h2 c]
  constructor
  · rintro (h | h)
    · simp [CharClass.contains, CharClass.new, MSet.values] at h
    · exact h
  · intro h
    exact Or.inr h

/-- A successful `CharRange::intersection` of proper ranges is proper
and contains exactly the common points. -/
theorem range_intersection_some {r other p : CharRange}
    (hr : r.start.val ≤ r.endc.val) (ho : other.start.val ≤ other.endc.val)
    (h : r.intersection other = some p) :
    p.start.val ≤ p.endc.val ∧
    ∀ c : UChar, (p.contains c = true ↔
      (r.contains c = true ∧ other.contains c = true)) := by
  unfold CharRange.intersection at h
  by_cases hd : (other.start.val > r.endc.val || r.start.val > other.endc.val) = true
  · rw [if_pos hd] at h; cases h
  · rw [if_neg hd] at h
    cases h
    simp only [Bool.or_eq_true, decide_eq_true_eq, not_or] at hd
    refine ⟨?_, fun c => ?_⟩
    · dsimp only [CharRange.new]
      split_ifs <;> omega
    · dsimp only [CharRange.new]
      simp only [CharRange.contains, Bool.and_eq_true, decide_eq_true_eq]
      split_ifs <;> omega

/-- A failed `CharRange::intersection` certifies the ranges share no
point. -/
theorem range_intersection_none {r other : CharRange}
    (h : r.intersection other = none) (c : UChar) :
    ¬(r.contains c = true ∧ other.contains c = true) := by
  unfold CharRange.intersection at h
  by_cases hd : (other.start.val > r.endc.val || r.start.val > other.endc.val) = true
  · simp only [Bool.or_eq_true, decide_eq_true_eq] at hd
    rintro ⟨h1, h2⟩
    simp only [CharRange.contains, Bool.and_eq_true, decide_eq_true_eq] at h1 h2
    rcases hd with hd | hd <;> omega
  · rw [if_neg hd] at h; cases h

/-- One row of `CharClass::intersection`: the pairwise intersections of
a proper range with the stored ranges of a class are proper and cover
exactly the range's points inside the class. -/
theorem inter_row_spec {other : CharClass} {r : CharRange}
    (ho : ∀ q ∈ other.ranges.values, q.start.val ≤ q.endc.val)
    (hr : r.start.val ≤ r.endc.val) :
    (∀ p ∈ other.ranges.values.filterMap (fun q => r.intersection q),
        p.start.val ≤ p.endc.val) ∧
    ∀ c : UChar,
      ((∃ p ∈ other.ranges.values.filterMap (fun q => r.intersection q),
          p.contains c = true) ↔
        (r.contains c = true ∧ other.contains c = true)) := by
  constructor
  · intro p hp
    obtain ⟨q, hq, hsome⟩ := List.mem_filterMap.1 hp
    exact (range_intersection_some hr (ho q hq) hsome).1
  · intro c
    constructor
    · rintro ⟨p, hp, hpc⟩
      obtain ⟨q, hq, hsome⟩ := List.mem_filterMap.1 hp
      obtain ⟨hc1, hc2⟩ := ((range_intersection_some hr (ho q hq) hsome).2 c).1 hpc
      exact ⟨hc1, (contains_values_iff other c).2 ⟨q, hq, hc2⟩⟩
    · rintro ⟨hc1, hc2⟩
      obtain ⟨q, hq, hqc⟩ := (contains_values_iff other c).1 hc2
      cases hsome : r.intersection q with
      | none => exact absurd ⟨hc1, hqc⟩ (range_intersection_none hsome c)
      | some p =>
        refine ⟨p, List.mem_filterMap.2 ⟨q, hq, hsome⟩, ?_⟩
        exact ((range_intersection_some hr (ho q hq) hsome).2 c).2 ⟨hc1, hqc⟩

/-- The accumulator fold inside `CharClass::intersection`. -/
theorem inter_fold_spec (other : CharClass)
    (ho : ∀ q ∈ other.ranges.values, q.start.val ≤ q.endc.val)
    (rs : List CharRange) :
    ∀ (acc : CharClass), CCWF acc → (∀ r ∈ rs, r.start.val ≤ r.endc.val) →
    CCWF (rs.foldl (fun acc r =>
        (other.ranges.values.filterMap (fun q => r.intersection q)).foldl
          CharClass.addRange acc) acc) ∧
    ∀ c : UChar,
      ((rs.foldl (fun acc r =>
          (other.ranges.values.filterMap (fun q => r.intersection q)).foldl
            CharClass.addRange acc) acc).contains c = true ↔
        (acc.contains c = true ∨
          ∃ r ∈ rs, r.contains c = true ∧ other.contains c = true)) := by
  induction rs with
  | nil =>
    intro acc hacc _
    refine ⟨hacc, fun c => ?_⟩
    simp
  | cons hd tl ih =>
    intro acc hacc hrs
    have hhd := hrs hd (List.mem_cons_self hd tl)
    obtain ⟨hrow1, hrow2⟩ := inter_row_spec ho hhd
    obtain ⟨h1, h2⟩ := foldl_addRange_spec _ acc hacc hrow1
    obtain ⟨h3, h4⟩ := ih _ h1 (fun r hrm => hrs r (List.mem_cons_of_mem hd hrm))
    refine ⟨h3, fun c => ?_⟩
    simp only [List.foldl_cons]
    rw [h4 c, h2 c, hrow2 c]
    constructor
    · rintro ((h | h) | ⟨r, hrm, hc⟩)
      · exact Or.inl h
      · exact Or.inr ⟨hd, List.mem_cons_self hd tl, h⟩
      · exact Or.inr ⟨r, List.mem_cons_of_mem hd hrm, hc⟩
    · rintro (h | ⟨r, hrm, hc⟩)
      · exact Or.inl (Or.inl h)
      · rcases List.mem_cons.1 hrm with rfl | hrm'
        · exact Or.inl (Or.inr hc)
        · exact Or.inr ⟨r, hrm', hc⟩

/-- `CharClass::intersection` of well-formed classes is well-formed and
contains exactly the common points. -/
theorem intersection_spec {cc other : CharClass}
    (hcc : CCWF cc) (hother : CCWF other) :
    CCWF (cc.intersection other) ∧
    ∀ c : UChar, ((cc.intersection other).contains c = true ↔
      (cc.contains c = true ∧ other.contains c = true)) := by
  have hov : ∀ q ∈ other.ranges.values, q.start.val ≤ q.endc.val := by
    intro q hq
    obtain ⟨e, he, rfl⟩ := List.mem_map.1 hq
    exact (hother.2 e he).2
  have hcv : ∀ r ∈ cc.ranges.values, r.start.val ≤ r.endc.val := by
    intro r hrm
    obtain ⟨e, he, rfl⟩ := List.mem_map.1 hrm
    exact (hcc.2 e he).2
  have hnew : CCWF CharClass.new := ⟨List.Pairwise.nil, by intro e he; cases he⟩
  obtain ⟨h1, h2⟩ := inter_fold_spec other hov cc.ranges.values CharClass.new hnew hcv
  refine ⟨h1, fun c => ?_⟩
  unfold CharClass.intersection
  rw [h2 c]
  constructor
  · rintro (h | ⟨r, hrm, hc1, hc2⟩)
    · simp [CharClass.contains, CharClass.new, MSet.values] at h
    · exact ⟨(contains_values_iff cc c).2 ⟨r, hrm, hc1⟩, hc2⟩
  · rintro ⟨hc1, hc2⟩
    obtain ⟨r, hrm, hrc⟩ := (contains_values_iff cc c).1 hc1
    exact Or.inr ⟨r, hrm, hrc, hc2⟩

/-- A successful `mapOpt` relates inputs and outputs pointwise. -/
theorem mapOpt_forall₂ {α β : Type} {f : α → Option β} :
    ∀ {xs : List α} {ys : List β}, mapOpt f xs = some ys →
      List.Forall₂ (fun x y => f x = some y) xs ys := by
  intro xs
  induction xs with
  | nil =>
    intro ys h
    simp only [mapOpt] at h
    cases h
    exact List.Forall₂.nil
  | cons hd tl ih =>
    intro ys h
    simp only [mapOpt, Option.bind_eq_bind] at h
    cases hf : f hd with
    | none => rw [hf] at h; cases h
    | some y =>
      rw [hf] at h
      cases hm : mapOpt f tl with
      | none => rw [hm] at h; cases h
      | some ys' =>
        rw [hm] at h
        simp only [Option.some_bind, Option.some_inj] at h
        cases h
        exact List.Forall₂.cons hf (ih hm)

/-- Folding `CharClass::intersection` over a list of well-formed
classes intersects all of them. -/
theorem inter_list_fold_spec (ps : List CharClass) :
    ∀ (acc : CharClass), CCWF acc → (∀ p ∈ ps, CCWF p) →
    CCWF (ps.foldl CharClass.intersection acc) ∧
    ∀ c : UChar, ((ps.foldl CharClass.intersection acc).contains c = true ↔
      (acc.contains c = true ∧ ∀ p ∈ ps, p.contains c = true)) := by
  induction ps with
  | nil =>
    intro acc hacc _
    refine ⟨hacc, fun c => ?_⟩
    simp
  | cons hd tl ih =>
    intro acc hacc hps
    have hhd := hps hd (List.mem_cons_self hd tl)
    obtain ⟨h1, h2⟩ := intersection_spec hacc hhd
    obtain ⟨h3, h4⟩ :=
      ih (acc.intersection hd) h1 (fun p hp => hps p (List.mem_cons_of_mem hd hp))
    refine ⟨h3, fun c => ?_⟩
    simp only [List.foldl_cons]
    rw [h4 c, h2 c]
    constructor
    · rintro ⟨⟨ha, hh⟩, htl⟩
      refine ⟨ha, fun p hp => ?_⟩
      rcases List.mem_cons.1 hp with rfl | hp'
      · exact hh
      · exact htl p hp'
    · rintro ⟨ha, hall⟩
      exact ⟨⟨ha, hall hd (List.mem_cons_self hd tl)⟩,
        fun p hp => hall p (List.mem_cons_of_mem hd hp)⟩

/-- `CharClass::complement` on a nonempty well-formed class returns a
well-formed class holding exactly the scalar values outside it. -/
theorem complement_spec {cc cc1 : CharClass}
    (hwf : CCWF cc) (hne : cc.ranges ≠ [])
    (h : cc.complement = some cc1) :
    CCWF cc1 ∧ ∀ c : UChar, (cc1.contains c = true ↔ ¬(cc.contains c = true)) := by
  unfold CharClass.complement at h
  simp only [Option.bind_eq_bind] at h
  cases hm : mapOpt (fun r => (r.complement).map CharClass.ofRanges) cc.ranges.values with
  | none => rw [hm] at h; cases h
  | some pieces =>
    rw [hm] at h
    have hf := mapOpt_forall₂ hm
    have hpc : ∀ {r : CharRange} {p : CharClass},
        (r.complement).map CharClass.ofRanges = some p →
        CCWF p ∧ ∀ c : UChar, (p.contains c = true ↔ ¬(r.contains c = true)) := by
      intro r p hp
      cases hrc : r.complement with
      | none => rw [hrc] at hp; cases hp
      | some l =>
        rw [hrc] at hp
        simp only [Option.map_some', Option.some_inj] at hp
        cases hp
        obtain ⟨hl1, hl2⟩ := range_complement_spec hrc
        obtain ⟨ho1, ho2⟩ := ofRanges_spec hl1
        refine ⟨ho1, fun c => ?_⟩
        rw [ho2 c, ← hl2 c, List.any_eq_true]
    cases pieces with
    | nil =>
      have hlen := List.Forall₂.length_eq hf
      simp only [List.length_nil] at hlen
      have hvnil : cc.ranges.values = [] := List.eq_nil_of_length_eq_zero hlen
      have : cc.ranges = [] := by
        unfold MSet.values at hvnil
        exact List.map_eq_nil_iff.1 hvnil
      exact absurd this hne
    | cons first rest =>
      simp only [Option.some_bind, pure, Option.some_inj] at h
      have hcc1 : rest.foldl CharClass.intersection first = cc1 := h
      have hfirstR := forall₂_mem_right hf first (List.mem_cons_self first rest)
      obtain ⟨r0, hr0, hro⟩ := hfirstR
      have hfirst := hpc hro
      have hrest : ∀ p ∈ rest, CCWF p := by
        intro p hp
        obtain ⟨r, hrm, hrp⟩ := forall₂_mem_right hf p (List.mem_cons_of_mem first hp)
        exact (hpc hrp).1
      obtain ⟨h1, h2⟩ := inter_list_fold_spec rest first hfirst.1 hrest
      rw [hcc1] at h1 h2
      refine ⟨h1, fun c => ?_⟩
      rw [h2 c]
      constructor
      · rintro ⟨hfc, hallc⟩ hccc
        obtain ⟨r, hrm, hrc⟩ := (contains_values_iff cc c).1 hccc
        obtain ⟨p, hp, hrp⟩ := forall₂_mem_left hf r hrm
        have hpnc : p.contains c = true := by
          rcases List.mem_cons.1 hp with rfl | hp'
          · exact hfc
          · exact hallc p hp'
        exact ((hpc hrp).2 c).1 hpnc hrc
      · intro hccc
        have hall : ∀ p ∈ first :: rest, p.contains c = true := by
          intro p hp
          obtain ⟨r, hrm, hrp⟩ := forall₂_mem_right hf p hp
          refine ((hpc hrp).2 c).2 ?_
          intro hrc
          exact hccc ((contains_values_iff cc c).2 ⟨r, hrm, hrc⟩)
        exact ⟨hall first (List.mem_cons_self first rest),
          fun p hp => hall p (List.mem_cons_of_mem first hp)⟩

/-- C8 (amended): when `cc.complement()` and the second complement both
return normally, `cc` is well-formed, and the intermediate complement
is a nonempty class, the double complement contains exactly the code
points of `cc`. -/
theorem c8_double_complement_involution {cc cc1 cc2 : CharClass}
    (hwf : CCWF cc)
    (h1 : cc.complement = some cc1) (h2 : cc1.complement = some cc2)
    (hne : cc1.ranges ≠ []) :
    ∀ c : UChar, cc2.contains c = cc.contains c := by
  have hne0 : cc.ranges ≠ [] := by
    intro h0
    have hvnil : cc.ranges.values = [] := by
      unfold MSet.values
      rw [h0]
      rfl
    have hcomp : cc.complement = some CharClass.new := by
      unfold CharClass.complement
      rw [hvnil]
      rfl
    rw [hcomp] at h1
    cases h1
    exact hne rfl
  obtain ⟨hwf1, hch1⟩ := complement_spec hwf hne0 h1
  obtain ⟨hwf2, hch2⟩ := complement_spec hwf1 hne h2
  intro c
  have hiff := hch2 c
  rw [hch1 c] at hiff
  by_cases hc : cc.contains c = true
  · have h2c : cc2.contains c = true := hiff.2 (fun hn => hn hc)
    rw [h2c, hc]
  · have h2c : ¬(cc2.contains c = true) := fun hx => (hiff.1 hx) hc
    rw [Bool.not_eq_true] at h2c hc
    rw [h2c, hc]

/-- Closed witness for the double-complement relation at the concrete
class `[U+D000-U+E500]`, whose complements avoid the surrogate
boundaries. -/
theorem c8_double_complement_involution_witness :
    CCWF ccD ∧ ccD.complement = some ccDc ∧ ccDc.complement = some ccDcc ∧
      ccDc.ranges ≠ [] ∧ ccDcc.contains (uch 0xd123) = ccD.contains (uch 0xd123) :=
  ⟨by decide, by decide, by decide, by decide,
    @c8_double_complement_involution ccD ccDc ccDcc (by decide) (by decide)
      (by decide) (by decide) (uch 0xd123)⟩

end Regexp2

